import Mathlib

set_option maxHeartbeats 1600000

/-!
Shallow embedding of `radio_runner.py` (rolling downloader/player).

The embedding covers:
* the strategy-chain downloader `ytdlp_download_smart` (lines 104-144),
  with each strategy's outcome supplied by an oracle `att`;
* the main fetch/play/jingle/delete loop of `main` (lines 247-300),
  as a recursive function over an explicit state, emitting a trace of
  observable events;
* startup handling of the URLs file (lines 194-202) and of the jingle
  directory (lines 210-220), and the process exit status.

Modelling conventions, each justified against the source:
* File paths are identified with queue indices: yt-dlp writes each item to a
  distinct per-item path derived from its title/id, so items never alias.
* The single background download (`ThreadPoolExecutor(max_workers=1)`) is
  serialized so that its file-creation event lands at submission time, the
  earliest instant the real interleaving allows; this is the worst case for
  the number of files simultaneously on disk, and every other observable of
  the loop is unaffected because the foreground joins the future before use.
* `dl_future` is non-None at every loop entry (the initial submission at line
  252, the resubmission at line 262, and the `break` at line 296 guarantee
  this), so the loop takes the joined `Optional[Path]` result directly.
* `prev_song.exists()` at line 283 is always true when `prev_song` is set:
  a file is unlinked only while it is `prev_song`, and `prev_song` is then
  reassigned, so no file is ever deleted twice.
* The `stopping` flag set by `handle_sigint` is polled only by the `while`
  condition; it is modelled by the index of the first condition check that
  observes it (`stopFrom`), which is monotone since the flag is never reset.
* `random.choice(jingles)` is an oracle `pick` (indexed by the play count)
  reduced modulo the library size.
-/

namespace RadioRunner

/-- Observable events of the pipeline, in execution order. -/
inductive Ev : Type
  | created (i : Nat)
  | fetchFail (i : Nat)
  | playStart (i : Nat)
  | playEnd (i : Nat)
  | jingle (j : Nat)
  | skipped (i : Nat)
  | deleted (i : Nat)
deriving DecidableEq, Repr

/-- Mutable state of `main`'s loop: `idx` (line 247), `prev_song` (248),
`play_count` (249), plus `checks`, the number of `while`-condition
evaluations performed so far (the points where `stopping` is polled). -/
structure St where
  idx : Nat
  prev_song : Option Nat
  play_count : Nat
  checks : Nat
deriving DecidableEq, Repr

/-- Per-run configuration and the oracles for the external collaborators:
`fetchOk i` tells whether `ytdlp_download_smart` succeeds on item `i`;
`jingleCount` is the number of audio files found under the jingles dir
(0 also covers a missing dir); `pick` resolves `random.choice`;
`stopFrom` is the first `while`-condition check at which the SIGINT-set
`stopping` flag reads true (`none` = no interrupt). -/
structure Config where
  fetchOk : Nat → Bool
  jingle_period : Nat
  jingleCount : Nat
  pick : Nat → Nat
  no_delete : Bool
  stopFrom : Option Nat

/-- Value of the `stopping` flag at the `t`-th loop-condition check. -/
def stopped (cfg : Config) (t : Nat) : Bool :=
  match cfg.stopFrom with
  | none => false
  | some s => decide (s ≤ t)

/-- Effective jingle period after the startup adjustment of lines 210-220:
a missing or empty jingles directory forces `args.jingle_period = 0`. -/
def effPeriod (cfg : Config) : Nat :=
  if cfg.jingleCount = 0 then 0 else cfg.jingle_period

/-- Result of `ytdlp_download_smart` for item `i`, as joined from the
future: the item's file path (numbered by its index) or `None`. -/
def fetchRes (cfg : Config) (i : Nat) : Option Nat :=
  if cfg.fetchOk i then some i else none

/-- The trace event a download of item `i` emits when it runs. -/
def fetchHead (cfg : Config) (i : Nat) : Ev :=
  if cfg.fetchOk i then Ev.created i else Ev.fetchFail i

/-- The jingle condition of line 277 at (post-increment) play count `m`:
`args.jingle_period > 0 and play_count % args.jingle_period == 0 and jingles`. -/
def jcond (cfg : Config) (m : Nat) : Bool :=
  decide (0 < effPeriod cfg) && decide (m % effPeriod cfg = 0) && decide (0 < cfg.jingleCount)

/-- Events emitted by the jingle step (lines 277-280) at play count `m`. -/
def jingleEvs (cfg : Config) (m : Nat) : List Ev :=
  if jcond cfg m = true then [Ev.jingle (cfg.pick m % cfg.jingleCount)] else []

/-- Events emitted by the rolling-delete step (lines 283-288). -/
def delEvs (cfg : Config) (prev : Option Nat) : List Ev :=
  if cfg.no_delete = false then
    match prev with
    | some q => [Ev.deleted q]
    | none => []
  else []

/-- Events of the play/jingle/delete part of one loop iteration (lines
273-288): play the current item `p`, maybe a jingle, maybe delete the
previous song. -/
def playSeg (cfg : Config) (p : Nat) (pc : Nat) (prev : Option Nat) : List Ev :=
  Ev.playStart p :: Ev.playEnd p :: (jingleEvs cfg pc ++ delEvs cfg prev)

/-- The `while` loop of `main` (lines 254-298). `dl` is the joined result of
the pending `dl_future`; `fuel` dominates the remaining iteration count
(each iteration increments `idx`, and the loop exits once `n ≤ idx`, so any
`fuel ≥ n - idx` gives the exact semantics). -/
def mainLoop (cfg : Config) (n : Nat) : Nat → St → Option Nat → List Ev × St
  | 0, st, _ => ([], st)
  | fuel + 1, st, dl =>
    if stopped cfg st.checks = true ∨ n ≤ st.idx then ([], st)
    else
      match dl with
      | none =>
        if st.idx + 1 < n then
          let r := mainLoop cfg n fuel ⟨st.idx + 1, st.prev_song, st.play_count, st.checks + 1⟩
              (fetchRes cfg (st.idx + 1))
          (Ev.skipped st.idx :: fetchHead cfg (st.idx + 1) :: r.1, r.2)
        else
          ([Ev.skipped st.idx], ⟨st.idx + 1, st.prev_song, st.play_count, st.checks + 1⟩)
      | some p =>
        let st2 : St := ⟨st.idx + 1, some p, st.play_count + 1, st.checks + 1⟩
        if st.idx + 1 < n then
          let r := mainLoop cfg n fuel st2 (fetchRes cfg (st.idx + 1))
          (fetchHead cfg (st.idx + 1) ::
            (playSeg cfg p (st.play_count + 1) st.prev_song ++ r.1), r.2)
        else
          (playSeg cfg p (st.play_count + 1) st.prev_song, st2)

/-- Initial loop state (lines 247-249). -/
def initSt : St := ⟨0, none, 0, 0⟩

/-- `main` from the first submission (line 252) onward, for a non-empty
queue of length `n`: the initial download of item 0 followed by the loop. -/
def mainRun (cfg : Config) (n : Nat) : List Ev × St :=
  let r := mainLoop cfg n n initSt (fetchRes cfg 0)
  (fetchHead cfg 0 :: r.1, r.2)

/-- Python `str.isspace` characters stripped by `str.strip()`. -/
def isSpaceChar (c : Char) : Bool :=
  c = ' ' || c = '\t' || c = '\n' || c = '\r' || c.val = 11 || c.val = 12

/-- Python `str.strip()` on a line given as its character list. -/
def pyStrip (s : List Char) : List Char :=
  ((s.dropWhile isSpaceChar).reverse.dropWhile isSpaceChar).reverse

/-- Line 199: strip each line, keep the non-blank ones. -/
def parseUrls (lines : List (List Char)) : List (List Char) :=
  (lines.map pyStrip).filter (fun s => s ≠ [])

/-- `main` including the startup checks of lines 194-202: a missing URLs
file or an empty (all-blank) one exits with status 2 before any fetch or
playback; otherwise the run executes and the process exits 0. Returns
(exit status, event trace). -/
def radioMain (cfg : Config) (urlsFileExists : Bool) (lines : List (List Char)) :
    Nat × List Ev :=
  if urlsFileExists = false then (2, [])
  else if parseUrls lines = [] then (2, [])
  else (0, (mainRun cfg (parseUrls lines).length).1)

/-- Outcome of `ytdlp_download_smart`: the produced resource (path id and
the 1-based index of the strategy that produced it), the stderr text logged
for each failed attempt in order, and the number of `time.sleep(1.0)`
backoffs taken (line 139: one after each failed attempt). -/
structure SmartResult where
  resource : Option (Nat × Nat)
  errors : List String
  sleeps : Nat
deriving DecidableEq, Repr

/-- The strategy list assembled at lines 119-128: user-provided extra args
first, then the Android client fallback, then Android plus chunking. -/
def strategies (user_extra : List String) : List (List String) :=
  [user_extra,
   ["--extractor-args", "youtube:player_client=android"],
   ["--extractor-args", "youtube:player_client=android", "--http-chunk-size", "10M"]]

/-- The `for i, extra in enumerate(strategies, start=1)` loop of lines
131-139: `att i` is the outcome of `try_ytdlp_once` under strategy `i`
(`ok path` or `error stderrText`); `rem` counts remaining strategies. -/
def smartGo (att : Nat → Except String Nat) : Nat → Nat → SmartResult
  | _, 0 => ⟨none, [], 0⟩
  | i, rem + 1 =>
    match att i with
    | Except.ok p => ⟨some (p, i), [], 0⟩
    | Except.error e =>
      let r := smartGo att (i + 1) rem
      ⟨r.resource, e :: r.errors, r.sleeps + 1⟩

/-- `ytdlp_download_smart` over the outcome oracle `att`: try the three
strategies in order, return on first success, log every failure. -/
def ytdlp_download_smart (att : Nat → Except String Nat) : SmartResult :=
  smartGo att 1 (strategies []).length

/-- True on source-playback completion events. -/
def isPlayEnd : Ev → Bool
  | Ev.playEnd _ => true
  | _ => false

/-- Number of completed source playbacks in a trace. -/
def countPlays (tr : List Ev) : Nat := tr.countP isPlayEnd

/-- True on jingle playback events. -/
def isJingle : Ev → Bool
  | Ev.jingle _ => true
  | _ => false

/-- Number of jingle playbacks in a trace. -/
def countJingles (tr : List Ev) : Nat := tr.countP isJingle

/-- Item index of a download-attempt event (success or exhaustion). -/
def fetchIdx : Ev → Option Nat
  | Ev.created i => some i
  | Ev.fetchFail i => some i
  | _ => none

/-- Indices of the items the downloader was run on, in order. -/
def fetchSeq (tr : List Ev) : List Nat := tr.filterMap fetchIdx

/-- Item index of a completed source playback event. -/
def playIdx : Ev → Option Nat
  | Ev.playEnd i => some i
  | _ => none

/-- Indices of the source items played, in order. -/
def playedSeq (tr : List Ev) : List Nat := tr.filterMap playIdx

/-- Item index of a rolling-delete event. -/
def delIdx : Ev → Option Nat
  | Ev.deleted i => some i
  | _ => none

/-- Indices of the source files deleted, in order. -/
def deletedSeq (tr : List Ev) : List Nat := tr.filterMap delIdx

/-- Effect of one event on the set of source-derived files on disk. -/
def diskStep (s : Finset Nat) : Ev → Finset Nat
  | Ev.created i => insert i s
  | Ev.deleted i => s.erase i
  | _ => s

/-- Source-derived files on disk after a trace prefix, starting from `s`. -/
def diskFrom (s : Finset Nat) (tr : List Ev) : Finset Nat := tr.foldl diskStep s

/-- Source-derived files on disk after a trace prefix of a fresh run. -/
def disk (tr : List Ev) : Finset Nat := diskFrom ∅ tr

/-! ### Branch-unfolding equations for `mainLoop` -/

theorem mainLoop_zero (cfg : Config) (n : Nat) (st : St) (dl : Option Nat) :
    mainLoop cfg n 0 st dl = ([], st) := rfl

theorem mainLoop_exit (cfg : Config) (n fuel : Nat) (st : St) (dl : Option Nat)
    (h : stopped cfg st.checks = true ∨ n ≤ st.idx) :
    mainLoop cfg n (fuel + 1) st dl = ([], st) := by
  simp only [mainLoop, if_pos h]

theorem mainLoop_skip_cont (cfg : Config) (n fuel : Nat) (st : St)
    (h : ¬(stopped cfg st.checks = true ∨ n ≤ st.idx)) (h2 : st.idx + 1 < n) :
    mainLoop cfg n (fuel + 1) st none =
      (Ev.skipped st.idx :: fetchHead cfg (st.idx + 1) ::
        (mainLoop cfg n fuel ⟨st.idx + 1, st.prev_song, st.play_count, st.checks + 1⟩
          (fetchRes cfg (st.idx + 1))).1,
       (mainLoop cfg n fuel ⟨st.idx + 1, st.prev_song, st.play_count, st.checks + 1⟩
          (fetchRes cfg (st.idx + 1))).2) := by
  simp only [mainLoop, if_neg h, if_pos h2]

theorem mainLoop_skip_last (cfg : Config) (n fuel : Nat) (st : St)
    (h : ¬(stopped cfg st.checks = true ∨ n ≤ st.idx)) (h2 : ¬st.idx + 1 < n) :
    mainLoop cfg n (fuel + 1) st none =
      ([Ev.skipped st.idx], ⟨st.idx + 1, st.prev_song, st.play_count, st.checks + 1⟩) := by
  simp only [mainLoop, if_neg h, if_neg h2]

theorem mainLoop_play_cont (cfg : Config) (n fuel : Nat) (st : St) (p : Nat)
    (h : ¬(stopped cfg st.checks = true ∨ n ≤ st.idx)) (h2 : st.idx + 1 < n) :
    mainLoop cfg n (fuel + 1) st (some p) =
      (fetchHead cfg (st.idx + 1) ::
        (playSeg cfg p (st.play_count + 1) st.prev_song ++
          (mainLoop cfg n fuel ⟨st.idx + 1, some p, st.play_count + 1, st.checks + 1⟩
            (fetchRes cfg (st.idx + 1))).1),
       (mainLoop cfg n fuel ⟨st.idx + 1, some p, st.play_count + 1, st.checks + 1⟩
          (fetchRes cfg (st.idx + 1))).2) := by
  simp only [mainLoop, if_neg h, if_pos h2]

theorem mainLoop_play_last (cfg : Config) (n fuel : Nat) (st : St) (p : Nat)
    (h : ¬(stopped cfg st.checks = true ∨ n ≤ st.idx)) (h2 : ¬st.idx + 1 < n) :
    mainLoop cfg n (fuel + 1) st (some p) =
      (playSeg cfg p (st.play_count + 1) st.prev_song,
       ⟨st.idx + 1, some p, st.play_count + 1, st.checks + 1⟩) := by
  simp only [mainLoop, if_neg h, if_neg h2]

/-! ### Classification of the small event segments -/

@[simp]
theorem isPlayEnd_fetchHead (cfg : Config) (i : Nat) : isPlayEnd (fetchHead cfg i) = false := by
  unfold fetchHead
  split <;> rfl

@[simp]
theorem isJingle_fetchHead (cfg : Config) (i : Nat) : isJingle (fetchHead cfg i) = false := by
  unfold fetchHead
  split <;> rfl

@[simp]
theorem fetchIdx_fetchHead (cfg : Config) (i : Nat) : fetchIdx (fetchHead cfg i) = some i := by
  unfold fetchHead
  split <;> rfl

@[simp]
theorem playIdx_fetchHead (cfg : Config) (i : Nat) : playIdx (fetchHead cfg i) = none := by
  unfold fetchHead
  split <;> rfl

@[simp]
theorem delIdx_fetchHead (cfg : Config) (i : Nat) : delIdx (fetchHead cfg i) = none := by
  unfold fetchHead
  split <;> rfl

@[simp]
theorem isPlayEnd_eval :
    (∀ i, isPlayEnd (Ev.created i) = false) ∧ (∀ i, isPlayEnd (Ev.fetchFail i) = false) ∧
    (∀ i, isPlayEnd (Ev.playStart i) = false) ∧ (∀ i, isPlayEnd (Ev.playEnd i) = true) ∧
    (∀ j, isPlayEnd (Ev.jingle j) = false) ∧ (∀ i, isPlayEnd (Ev.skipped i) = false) ∧
    (∀ i, isPlayEnd (Ev.deleted i) = false) :=
  ⟨fun _ => rfl, fun _ => rfl, fun _ => rfl, fun _ => rfl, fun _ => rfl, fun _ => rfl,
   fun _ => rfl⟩

@[simp]
theorem isJingle_eval :
    (∀ i, isJingle (Ev.created i) = false) ∧ (∀ i, isJingle (Ev.fetchFail i) = false) ∧
    (∀ i, isJingle (Ev.playStart i) = false) ∧ (∀ i, isJingle (Ev.playEnd i) = false) ∧
    (∀ j, isJingle (Ev.jingle j) = true) ∧ (∀ i, isJingle (Ev.skipped i) = false) ∧
    (∀ i, isJingle (Ev.deleted i) = false) :=
  ⟨fun _ => rfl, fun _ => rfl, fun _ => rfl, fun _ => rfl, fun _ => rfl, fun _ => rfl,
   fun _ => rfl⟩

@[simp]
theorem fetchIdx_eval :
    (∀ i, fetchIdx (Ev.created i) = some i) ∧ (∀ i, fetchIdx (Ev.fetchFail i) = some i) ∧
    (∀ i, fetchIdx (Ev.playStart i) = none) ∧ (∀ i, fetchIdx (Ev.playEnd i) = none) ∧
    (∀ j, fetchIdx (Ev.jingle j) = none) ∧ (∀ i, fetchIdx (Ev.skipped i) = none) ∧
    (∀ i, fetchIdx (Ev.deleted i) = none) :=
  ⟨fun _ => rfl, fun _ => rfl, fun _ => rfl, fun _ => rfl, fun _ => rfl, fun _ => rfl,
   fun _ => rfl⟩

@[simp]
theorem playIdx_eval :
    (∀ i, playIdx (Ev.created i) = none) ∧ (∀ i, playIdx (Ev.fetchFail i) = none) ∧
    (∀ i, playIdx (Ev.playStart i) = none) ∧ (∀ i, playIdx (Ev.playEnd i) = some i) ∧
    (∀ j, playIdx (Ev.jingle j) = none) ∧ (∀ i, playIdx (Ev.skipped i) = none) ∧
    (∀ i, playIdx (Ev.deleted i) = none) :=
  ⟨fun _ => rfl, fun _ => rfl, fun _ => rfl, fun _ => rfl, fun _ => rfl, fun _ => rfl,
   fun _ => rfl⟩

@[simp]
theorem delIdx_eval :
    (∀ i, delIdx (Ev.created i) = none) ∧ (∀ i, delIdx (Ev.fetchFail i) = none) ∧
    (∀ i, delIdx (Ev.playStart i) = none) ∧ (∀ i, delIdx (Ev.playEnd i) = none) ∧
    (∀ j, delIdx (Ev.jingle j) = none) ∧ (∀ i, delIdx (Ev.skipped i) = none) ∧
    (∀ i, delIdx (Ev.deleted i) = some i) :=
  ⟨fun _ => rfl, fun _ => rfl, fun _ => rfl, fun _ => rfl, fun _ => rfl, fun _ => rfl,
   fun _ => rfl⟩

theorem countPlays_nil : countPlays [] = 0 := rfl

theorem countPlays_cons (e : Ev) (tr : List Ev) :
    countPlays (e :: tr) = countPlays tr + (if isPlayEnd e then 1 else 0) :=
  List.countP_cons _ _ _

theorem countPlays_append (l1 l2 : List Ev) :
    countPlays (l1 ++ l2) = countPlays l1 + countPlays l2 :=
  List.countP_append _ _ _

theorem countJingles_nil : countJingles [] = 0 := rfl

theorem countJingles_cons (e : Ev) (tr : List Ev) :
    countJingles (e :: tr) = countJingles tr + (if isJingle e then 1 else 0) :=
  List.countP_cons _ _ _

theorem countJingles_append (l1 l2 : List Ev) :
    countJingles (l1 ++ l2) = countJingles l1 + countJingles l2 :=
  List.countP_append _ _ _

@[simp]
theorem countPlays_jingleEvs (cfg : Config) (m : Nat) : countPlays (jingleEvs cfg m) = 0 := by
  unfold jingleEvs
  split <;> rfl

@[simp]
theorem countPlays_delEvs (cfg : Config) (prev : Option Nat) :
    countPlays (delEvs cfg prev) = 0 := by
  unfold delEvs
  split
  · cases prev <;> rfl
  · rfl

@[simp]
theorem countJingles_jingleEvs (cfg : Config) (m : Nat) :
    countJingles (jingleEvs cfg m) = if jcond cfg m = true then 1 else 0 := by
  unfold jingleEvs
  split <;> simp_all [countJingles, isJingle]

@[simp]
theorem countJingles_delEvs (cfg : Config) (prev : Option Nat) :
    countJingles (delEvs cfg prev) = 0 := by
  unfold delEvs
  split
  · cases prev <;> rfl
  · rfl

@[simp]
theorem countPlays_playSeg (cfg : Config) (p pc : Nat) (prev : Option Nat) :
    countPlays (playSeg cfg p pc prev) = 1 := by
  simp [playSeg, countPlays_cons, countPlays_append]

@[simp]
theorem countJingles_playSeg (cfg : Config) (p pc : Nat) (prev : Option Nat) :
    countJingles (playSeg cfg p pc prev) = if jcond cfg pc = true then 1 else 0 := by
  simp [playSeg, countJingles_cons, countJingles_append]

/-! ### Play-count accounting: `play_count` counts exactly the completed
source playbacks, never the jingles, skips or failures. -/

theorem mainLoop_play_count (cfg : Config) (n : Nat) :
    ∀ fuel st dl,
      ((mainLoop cfg n fuel st dl).2).play_count
        = st.play_count + countPlays (mainLoop cfg n fuel st dl).1 := by
  intro fuel
  induction fuel with
  | zero => intro st dl; simp [mainLoop_zero, countPlays_nil]
  | succ fuel ih =>
    intro st dl
    by_cases h : stopped cfg st.checks = true ∨ n ≤ st.idx
    · simp [mainLoop_exit cfg n fuel st dl h, countPlays_nil]
    · cases dl with
      | none =>
        by_cases h2 : st.idx + 1 < n
        · rw [mainLoop_skip_cont cfg n fuel st h h2]
          simp only [countPlays_cons, isPlayEnd_fetchHead, isPlayEnd_eval.2.2.2.2.2.1]
          rw [ih]
          simp
        · rw [mainLoop_skip_last cfg n fuel st h h2]
          simp [countPlays_cons, countPlays_nil]
      | some p =>
        by_cases h2 : st.idx + 1 < n
        · rw [mainLoop_play_cont cfg n fuel st p h h2]
          simp only [countPlays_cons, countPlays_append, countPlays_playSeg,
            isPlayEnd_fetchHead]
          rw [ih]
          simp
          omega
        · rw [mainLoop_play_last cfg n fuel st p h h2]
          simp [countPlays_playSeg]

theorem mainRun_play_count (cfg : Config) (n : Nat) :
    ((mainRun cfg n).2).play_count = countPlays (mainRun cfg n).1 := by
  unfold mainRun
  simp only [countPlays_cons, isPlayEnd_fetchHead, mainLoop_play_count]
  simp [initSt]

theorem mainRun_fst (cfg : Config) (n : Nat) :
    (mainRun cfg n).1 = fetchHead cfg 0 :: (mainLoop cfg n n initSt (fetchRes cfg 0)).1 := rfl

theorem mainRun_snd (cfg : Config) (n : Nat) :
    (mainRun cfg n).2 = (mainLoop cfg n n initSt (fetchRes cfg 0)).2 := rfl

theorem stopped_none (cfg : Config) (hs : cfg.stopFrom = none) (t : Nat) :
    stopped cfg t = false := by
  simp [stopped, hs]

theorem mainLoop_all_ok_play_count (cfg : Config) (n : Nat)
    (hf : ∀ i, cfg.fetchOk i = true) (hs : cfg.stopFrom = none) :
    ∀ fuel st, n - st.idx ≤ fuel → st.idx < n →
      ((mainLoop cfg n fuel st (fetchRes cfg st.idx)).2).play_count
        = st.play_count + (n - st.idx) := by
  intro fuel
  induction fuel with
  | zero => intro st hfu hi; omega
  | succ fuel ih =>
    intro st hfu hi
    have h : ¬(stopped cfg st.checks = true ∨ n ≤ st.idx) := by
      simp [stopped_none cfg hs]
      omega
    have hdl : fetchRes cfg st.idx = some st.idx := by simp [fetchRes, hf]
    rw [hdl]
    by_cases h2 : st.idx + 1 < n
    · rw [mainLoop_play_cont cfg n fuel st st.idx h h2]
      have := ih ⟨st.idx + 1, some st.idx, st.play_count + 1, st.checks + 1⟩
        (by simp; omega) (by simpa)
      simp only at this
      rw [this]
      omega
    · rw [mainLoop_play_last cfg n fuel st st.idx h h2]
      simp only
      omega

/-- Always-succeeding fetcher and no interrupt: the run plays all `n`
queue items and the final play count is `n`. -/
theorem mainRun_all_ok_play_count (cfg : Config) (n : Nat)
    (hf : ∀ i, cfg.fetchOk i = true) (hs : cfg.stopFrom = none) (hn : 0 < n) :
    ((mainRun cfg n).2).play_count = n := by
  rw [mainRun_snd]
  have := mainLoop_all_ok_play_count cfg n hf hs n initSt (by simp [initSt]) (by simpa [initSt])
  simpa [initSt] using this

/-- Concrete configurations used by witnesses and counterexamples. -/
def cfgAllOk : Config := ⟨fun _ => true, 0, 0, fun _ => 0, false, none⟩

/-- C1: Play Count is incremented exactly once per successfully fetched and
played source item and never changed by filler playback or skipped/failed
items — for every run, `play_count` equals the number of completed source
playbacks in the trace; and for a non-empty queue of length `n` with an
always-succeeding fetcher and no interrupt, the pipeline plays exactly `n`
source items and the final play count is `n`. -/
theorem C1_play_count_exact (cfg : Config) (n : Nat)
    (hf : ∀ i, cfg.fetchOk i = true) (hs : cfg.stopFrom = none) (hn : 0 < n) :
    (((mainRun cfg n).2).play_count = n ∧ countPlays (mainRun cfg n).1 = n) ∧
      ∀ cfg2 m, ((mainRun cfg2 m).2).play_count = countPlays (mainRun cfg2 m).1 := by
  have h1 := mainRun_all_ok_play_count cfg n hf hs hn
  exact ⟨⟨h1, by rw [← mainRun_play_count]; exact h1⟩, fun cfg2 m => mainRun_play_count cfg2 m⟩

/-- Witness for C1 at a concrete queue of length 3. -/
theorem C1_play_count_exact_witness :
    ((mainRun cfgAllOk 3).2).play_count = 3 ∧ countPlays (mainRun cfgAllOk 3).1 = 3 :=
  (C1_play_count_exact cfgAllOk 3 (fun _ => rfl) rfl (by decide)).1

/-! ### Shape of the small segments under the filterMap observers -/

theorem jingleEvs_cases (cfg : Config) (m : Nat) :
    jingleEvs cfg m = [] ∨ ∃ j, jingleEvs cfg m = [Ev.jingle j] := by
  unfold jingleEvs
  split
  · exact Or.inr ⟨_, rfl⟩
  · exact Or.inl rfl

theorem delEvs_cases (cfg : Config) (prev : Option Nat) :
    delEvs cfg prev = [] ∨ ∃ q, prev = some q ∧ delEvs cfg prev = [Ev.deleted q] := by
  unfold delEvs
  split
  · cases prev with
    | none => exact Or.inl rfl
    | some q => exact Or.inr ⟨q, rfl, rfl⟩
  · exact Or.inl rfl

theorem fetchSeq_append (l1 l2 : List Ev) :
    fetchSeq (l1 ++ l2) = fetchSeq l1 ++ fetchSeq l2 :=
  List.filterMap_append _ _ _

theorem playedSeq_append (l1 l2 : List Ev) :
    playedSeq (l1 ++ l2) = playedSeq l1 ++ playedSeq l2 :=
  List.filterMap_append _ _ _

theorem deletedSeq_append (l1 l2 : List Ev) :
    deletedSeq (l1 ++ l2) = deletedSeq l1 ++ deletedSeq l2 :=
  List.filterMap_append _ _ _

@[simp]
theorem fetchSeq_jingleEvs (cfg : Config) (m : Nat) : fetchSeq (jingleEvs cfg m) = [] := by
  rcases jingleEvs_cases cfg m with h | ⟨j, h⟩ <;> simp [h, fetchSeq]

@[simp]
theorem fetchSeq_delEvs (cfg : Config) (prev : Option Nat) : fetchSeq (delEvs cfg prev) = [] := by
  rcases delEvs_cases cfg prev with h | ⟨q, _, h⟩ <;> simp [h, fetchSeq]

@[simp]
theorem fetchSeq_playSeg (cfg : Config) (p pc : Nat) (prev : Option Nat) :
    fetchSeq (playSeg cfg p pc prev) = [] := by
  have h1 := fetchSeq_jingleEvs cfg pc
  have h2 := fetchSeq_delEvs cfg prev
  unfold fetchSeq at h1 h2
  simp [playSeg, fetchSeq, List.filterMap_cons, List.filterMap_append, h1, h2]

@[simp]
theorem playedSeq_jingleEvs (cfg : Config) (m : Nat) : playedSeq (jingleEvs cfg m) = [] := by
  rcases jingleEvs_cases cfg m with h | ⟨j, h⟩ <;> simp [h, playedSeq]

@[simp]
theorem playedSeq_delEvs (cfg : Config) (prev : Option Nat) :
    playedSeq (delEvs cfg prev) = [] := by
  rcases delEvs_cases cfg prev with h | ⟨q, _, h⟩ <;> simp [h, playedSeq]

@[simp]
theorem playedSeq_playSeg (cfg : Config) (p pc : Nat) (prev : Option Nat) :
    playedSeq (playSeg cfg p pc prev) = [p] := by
  simp only [playSeg, playedSeq, List.filterMap_cons, playIdx_eval]
  have h1 := playedSeq_jingleEvs cfg pc
  have h2 := playedSeq_delEvs cfg prev
  unfold playedSeq at h1 h2
  simp [List.filterMap_append, h1, h2]

@[simp]
theorem deletedSeq_jingleEvs (cfg : Config) (m : Nat) : deletedSeq (jingleEvs cfg m) = [] := by
  rcases jingleEvs_cases cfg m with h | ⟨j, h⟩ <;> simp [h, deletedSeq]

theorem deletedSeq_playSeg (cfg : Config) (p pc : Nat) (prev : Option Nat) :
    deletedSeq (playSeg cfg p pc prev) = deletedSeq (delEvs cfg prev) := by
  simp only [playSeg, deletedSeq, List.filterMap_cons, delIdx_eval]
  have h1 := deletedSeq_jingleEvs cfg pc
  unfold deletedSeq at h1
  simp [List.filterMap_append, h1]

/-! ### The downloader runs once per reference, on consecutive references -/

theorem mainLoop_fetchSeq (cfg : Config) (n : Nat) :
    ∀ fuel st dl, ∃ k, fetchSeq (mainLoop cfg n fuel st dl).1 = List.range' (st.idx + 1) k := by
  intro fuel
  induction fuel with
  | zero => intro st dl; exact ⟨0, rfl⟩
  | succ fuel ih =>
    intro st dl
    by_cases h : stopped cfg st.checks = true ∨ n ≤ st.idx
    · exact ⟨0, by rw [mainLoop_exit cfg n fuel st dl h]; rfl⟩
    · cases dl with
      | none =>
        by_cases h2 : st.idx + 1 < n
        · rw [mainLoop_skip_cont cfg n fuel st h h2]
          obtain ⟨k, hk⟩ := ih ⟨st.idx + 1, st.prev_song, st.play_count, st.checks + 1⟩
            (fetchRes cfg (st.idx + 1))
          refine ⟨k + 1, ?_⟩
          simp only [fetchSeq, List.filterMap_cons, fetchIdx_eval.2.2.2.2.2.1,
            fetchIdx_fetchHead] at hk ⊢
          rw [hk, List.range'_succ]
        · rw [mainLoop_skip_last cfg n fuel st h h2]
          exact ⟨0, rfl⟩
      | some p =>
        by_cases h2 : st.idx + 1 < n
        · rw [mainLoop_play_cont cfg n fuel st p h h2]
          obtain ⟨k, hk⟩ := ih ⟨st.idx + 1, some p, st.play_count + 1, st.checks + 1⟩
            (fetchRes cfg (st.idx + 1))
          refine ⟨k + 1, ?_⟩
          simp only [fetchSeq, List.filterMap_cons, fetchIdx_fetchHead] at hk ⊢
          rw [List.filterMap_append]
          have h3 := fetchSeq_playSeg cfg p (st.play_count + 1) st.prev_song
          unfold fetchSeq at h3
          rw [h3]
          simp only [List.nil_append]
          rw [hk, List.range'_succ]
        · rw [mainLoop_play_last cfg n fuel st p h h2]
          exact ⟨0, by simp⟩

theorem mainRun_fetchSeq (cfg : Config) (n : Nat) :
    ∃ k, fetchSeq (mainRun cfg n).1 = List.range' 0 k := by
  obtain ⟨k, hk⟩ := mainLoop_fetchSeq cfg n n initSt (fetchRes cfg 0)
  refine ⟨k + 1, ?_⟩
  rw [mainRun_fst]
  simp only [fetchSeq, List.filterMap_cons, fetchIdx_fetchHead] at hk ⊢
  rw [hk, List.range'_succ]
  simp [initSt]

/-- Each queue reference is handed to the downloader at most once. -/
theorem mainRun_fetch_once (cfg : Config) (n : Nat) (i : Nat) :
    (fetchSeq (mainRun cfg n).1).count i ≤ 1 := by
  obtain ⟨k, hk⟩ := mainRun_fetchSeq cfg n
  rw [hk]
  exact List.nodup_iff_count_le_one.mp (List.nodup_range' 0 k) i

/-- C4: `ytdlp_download_smart` tries its three strategies in order with one
backoff sleep after each failed attempt, returns the resource of the first
succeeding strategy without running later ones (the error log then holds
exactly the earlier strategies' messages), returns a failure carrying all
three attempted strategies' error texts when every strategy fails, and the
pipeline hands each queue reference to the downloader at most once, so an
exhausted reference is never retried. -/
theorem C4_strategy_fallback (att : Nat → Except String Nat) :
    (∀ e1 e2 e3, att 1 = Except.error e1 → att 2 = Except.error e2 →
        att 3 = Except.error e3 →
        ytdlp_download_smart att = ⟨none, [e1, e2, e3], 3⟩) ∧
    (∀ p, att 1 = Except.ok p → ytdlp_download_smart att = ⟨some (p, 1), [], 0⟩) ∧
    (∀ e1 p, att 1 = Except.error e1 → att 2 = Except.ok p →
        ytdlp_download_smart att = ⟨some (p, 2), [e1], 1⟩) ∧
    (∀ e1 e2 p, att 1 = Except.error e1 → att 2 = Except.error e2 →
        att 3 = Except.ok p →
        ytdlp_download_smart att = ⟨some (p, 3), [e1, e2], 2⟩) ∧
    (∀ cfg n i, (fetchSeq (mainRun cfg n).1).count i ≤ 1) := by
  refine ⟨?_, ?_, ?_, ?_, fun cfg n i => mainRun_fetch_once cfg n i⟩
  · intro e1 e2 e3 h1 h2 h3
    simp [ytdlp_download_smart, strategies, smartGo, h1, h2, h3]
  · intro p h1
    simp [ytdlp_download_smart, strategies, smartGo, h1]
  · intro e1 p h1 h2
    simp [ytdlp_download_smart, strategies, smartGo, h1, h2]
  · intro e1 e2 p h1 h2 h3
    simp [ytdlp_download_smart, strategies, smartGo, h1, h2, h3]

/-- Witness for C4: concrete attempt oracles exercising total failure and
the never-retried pipeline bound. -/
theorem C4_strategy_fallback_witness :
    ytdlp_download_smart (fun i => Except.error (toString i)) = ⟨none, ["1", "2", "3"], 3⟩ ∧
      (fetchSeq (mainRun cfgAllOk 3).1).count 0 ≤ 1 :=
  ⟨(C4_strategy_fallback (fun i => Except.error (toString i))).1 "1" "2" "3" rfl rfl rfl,
   (C4_strategy_fallback (fun i => Except.error (toString i))).2.2.2.2 cfgAllOk 3 0⟩

/-- C5: a produced resource records the 1-based index of the strategy that
produced it; with strategy 1 failing and strategy 2 succeeding, every
produced resource is tagged with strategy 2, the strategy-1 error text is
logged, and the item is not aborted (a resource is still produced). -/
theorem C5_origin_strategy (att : Nat → Except String Nat) (e1 : String) (p : Nat)
    (h1 : att 1 = Except.error e1) (h2 : att 2 = Except.ok p) :
    (ytdlp_download_smart att).resource = some (p, 2) ∧
      e1 ∈ (ytdlp_download_smart att).errors ∧
      (ytdlp_download_smart att).resource ≠ none := by
  simp [ytdlp_download_smart, strategies, smartGo, h1, h2]

/-- Witness for C5 at a concrete oracle. -/
theorem C5_origin_strategy_witness :
    (ytdlp_download_smart
        (fun i => if i = 1 then Except.error "sabr" else Except.ok 7)).resource = some (7, 2) ∧
      "sabr" ∈ (ytdlp_download_smart
        (fun i => if i = 1 then Except.error "sabr" else Except.ok 7)).errors ∧
      (ytdlp_download_smart
        (fun i => if i = 1 then Except.error "sabr" else Except.ok 7)).resource ≠ none :=
  C5_origin_strategy (fun i => if i = 1 then Except.error "sabr" else Except.ok 7) "sabr" 7
    rfl rfl

/-- C8: a missing URLs file, or one whose lines are all blank after
stripping, makes the process exit with status 2 and an empty event trace
(no fetch or playback was started); any run that passes the startup checks
exits 0 — including interrupted runs, since `cfg2` ranges over every
`stopFrom` — so the configuration-failure status is distinct from the
success status. -/
theorem C8_startup_exit (cfg : Config) (lines : List (List Char)) (e : Bool)
    (h : e = false ∨ parseUrls lines = []) :
    radioMain cfg e lines = (2, []) ∧
      (∀ cfg2 lines2, parseUrls lines2 ≠ [] → (radioMain cfg2 true lines2).1 = 0) ∧
      (2 : Nat) ≠ 0 := by
  refine ⟨?_, ?_, by decide⟩
  · rcases h with h | h
    · simp [radioMain, h]
    · by_cases he : e = false
      · simp [radioMain, he]
      · simp [radioMain, he, h]
  · intro cfg2 lines2 h2
    simp [radioMain, h2]

/-- In a run whose every fetch fails, the final state has cursor `n`,
untouched previous-song pointer and play count, and the trace holds only
skip and fetch-failure events. -/
theorem mainLoop_all_fail (cfg : Config) (n : Nat)
    (hf : ∀ i, cfg.fetchOk i = false) (hs : cfg.stopFrom = none) :
    ∀ fuel st, n - st.idx ≤ fuel → st.idx < n →
      ((mainLoop cfg n fuel st none).2).idx = n ∧
      ((mainLoop cfg n fuel st none).2).prev_song = st.prev_song ∧
      ((mainLoop cfg n fuel st none).2).play_count = st.play_count ∧
      ∀ e ∈ (mainLoop cfg n fuel st none).1, ∃ i, e = Ev.skipped i ∨ e = Ev.fetchFail i := by
  intro fuel
  induction fuel with
  | zero => intro st hfu hi; omega
  | succ fuel ih =>
    intro st hfu hi
    have h : ¬(stopped cfg st.checks = true ∨ n ≤ st.idx) := by
      simp [stopped_none cfg hs]
      omega
    have hfh : fetchHead cfg (st.idx + 1) = Ev.fetchFail (st.idx + 1) := by
      simp [fetchHead, hf]
    by_cases h2 : st.idx + 1 < n
    · rw [mainLoop_skip_cont cfg n fuel st h h2]
      have hdl : fetchRes cfg (st.idx + 1) = none := by simp [fetchRes, hf]
      rw [hdl]
      obtain ⟨ha, hb, hc, hd⟩ := ih ⟨st.idx + 1, st.prev_song, st.play_count, st.checks + 1⟩
        (by simp; omega) (by simpa)
      refine ⟨ha, hb, hc, ?_⟩
      intro e he
      rw [hfh] at he
      simp only [List.mem_cons] at he
      rcases he with he | he | he
      · exact ⟨st.idx, Or.inl he⟩
      · exact ⟨st.idx + 1, Or.inr he⟩
      · exact hd e he
    · rw [mainLoop_skip_last cfg n fuel st h h2]
      refine ⟨by simp; omega, rfl, rfl, ?_⟩
      intro e he
      simp at he
      exact ⟨st.idx, Or.inl he⟩

/-- Concrete always-failing-fetcher configuration. -/
def cfgAllFail : Config := ⟨fun _ => false, 0, 0, fun _ => 0, false, none⟩

/-- C9: a fetch failure for an item is state-preserving except for the
cursor — the iteration emits only the skip log and the next submission,
performs no playback, plays no filler, deletes no file, and leaves the play
count and previous-song pointer unchanged while the cursor advances by one
(first conjunct, the exact one-iteration equation); consequently a run in
which every fetch fails ends with cursor `n`, play count 0, no previous
song, nothing played, no filler and no deletion, and exits with status 0. -/
theorem C9_failed_fetch_frame (cfg : Config) (n : Nat)
    (hf : ∀ i, cfg.fetchOk i = false) (hs : cfg.stopFrom = none) (hn : 0 < n) :
    (∀ (cfg2 : Config) (n2 fuel2 : Nat) (st2 : St),
        ¬(stopped cfg2 st2.checks = true ∨ n2 ≤ st2.idx) → st2.idx + 1 < n2 →
        mainLoop cfg2 n2 (fuel2 + 1) st2 none =
          (Ev.skipped st2.idx :: fetchHead cfg2 (st2.idx + 1) ::
            (mainLoop cfg2 n2 fuel2 ⟨st2.idx + 1, st2.prev_song, st2.play_count, st2.checks + 1⟩
              (fetchRes cfg2 (st2.idx + 1))).1,
           (mainLoop cfg2 n2 fuel2 ⟨st2.idx + 1, st2.prev_song, st2.play_count, st2.checks + 1⟩
              (fetchRes cfg2 (st2.idx + 1))).2)) ∧
    ((mainRun cfg n).2).idx = n ∧
    ((mainRun cfg n).2).prev_song = none ∧
    ((mainRun cfg n).2).play_count = 0 ∧
    (∀ i, Ev.playStart i ∉ (mainRun cfg n).1 ∧ Ev.playEnd i ∉ (mainRun cfg n).1 ∧
      Ev.jingle i ∉ (mainRun cfg n).1 ∧ Ev.deleted i ∉ (mainRun cfg n).1) ∧
    (∀ lines, parseUrls lines ≠ [] → (radioMain cfg true lines).1 = 0) := by
  have hdl0 : fetchRes cfg 0 = none := by simp [fetchRes, hf]
  have hfh0 : fetchHead cfg 0 = Ev.fetchFail 0 := by simp [fetchHead, hf]
  obtain ⟨ha, hb, hc, hd⟩ := mainLoop_all_fail cfg n hf hs n initSt (by simp [initSt])
    (by simpa [initSt])
  have hshape : ∀ e ∈ (mainRun cfg n).1, ∃ i, e = Ev.skipped i ∨ e = Ev.fetchFail i := by
    intro e he
    rw [mainRun_fst, hfh0, hdl0] at he
    simp only [List.mem_cons] at he
    rcases he with he | he
    · exact ⟨0, Or.inr he⟩
    · exact hd e he
  refine ⟨fun cfg2 n2 fuel2 st2 hx h2 => mainLoop_skip_cont cfg2 n2 fuel2 st2 hx h2,
    ?_, ?_, ?_, ?_, ?_⟩
  · rw [mainRun_snd, hdl0]; exact ha
  · rw [mainRun_snd, hdl0]; simpa [initSt] using hb
  · rw [mainRun_snd, hdl0]; simpa [initSt] using hc
  · intro i
    refine ⟨?_, ?_, ?_, ?_⟩ <;>
      · intro hmem
        obtain ⟨j, hj | hj⟩ := hshape _ hmem <;> simp at hj
  · intro lines h2
    simp [radioMain, h2]

/-- Witness for C9 at a concrete all-failing queue of length 3. -/
theorem C9_failed_fetch_frame_witness :
    ((mainRun cfgAllFail 3).2).play_count = 0 ∧
      ((mainRun cfgAllFail 3).2).idx = 3 ∧
      Ev.deleted 0 ∉ (mainRun cfgAllFail 3).1 :=
  ⟨(C9_failed_fetch_frame cfgAllFail 3 (fun _ => rfl) rfl (by decide)).2.2.2.1,
   (C9_failed_fetch_frame cfgAllFail 3 (fun _ => rfl) rfl (by decide)).2.1,
   ((C9_failed_fetch_frame cfgAllFail 3 (fun _ => rfl) rfl (by decide)).2.2.2.2.1 0).2.2.2⟩

/-! ### Membership in a play segment -/

theorem created_not_mem_playSeg (cfg : Config) (p pc : Nat) (prev : Option Nat) (i : Nat) :
    Ev.created i ∉ playSeg cfg p pc prev := by
  intro hmem
  rcases jingleEvs_cases cfg pc with hj | ⟨j, hj⟩ <;>
    rcases delEvs_cases cfg prev with hd | ⟨q, _, hd⟩ <;>
      simp [playSeg, hj, hd] at hmem

theorem fetchFail_not_mem_playSeg (cfg : Config) (p pc : Nat) (prev : Option Nat) (i : Nat) :
    Ev.fetchFail i ∉ playSeg cfg p pc prev := by
  intro hmem
  rcases jingleEvs_cases cfg pc with hj | ⟨j, hj⟩ <;>
    rcases delEvs_cases cfg prev with hd | ⟨q, _, hd⟩ <;>
      simp [playSeg, hj, hd] at hmem

theorem skipped_not_mem_playSeg (cfg : Config) (p pc : Nat) (prev : Option Nat) (i : Nat) :
    Ev.skipped i ∉ playSeg cfg p pc prev := by
  intro hmem
  rcases jingleEvs_cases cfg pc with hj | ⟨j, hj⟩ <;>
    rcases delEvs_cases cfg prev with hd | ⟨q, _, hd⟩ <;>
      simp [playSeg, hj, hd] at hmem

theorem playStart_mem_playSeg_iff (cfg : Config) (p pc : Nat) (prev : Option Nat) (x : Nat) :
    Ev.playStart x ∈ playSeg cfg p pc prev ↔ x = p := by
  rcases jingleEvs_cases cfg pc with hj | ⟨j, hj⟩ <;>
    rcases delEvs_cases cfg prev with hd | ⟨q, _, hd⟩ <;>
      simp [playSeg, hj, hd]

theorem playEnd_mem_playSeg_iff (cfg : Config) (p pc : Nat) (prev : Option Nat) (x : Nat) :
    Ev.playEnd x ∈ playSeg cfg p pc prev ↔ x = p := by
  rcases jingleEvs_cases cfg pc with hj | ⟨j, hj⟩ <;>
    rcases delEvs_cases cfg prev with hd | ⟨q, _, hd⟩ <;>
      simp [playSeg, hj, hd]

theorem deleted_mem_delEvs_iff (cfg : Config) (prev : Option Nat) (x : Nat) :
    Ev.deleted x ∈ delEvs cfg prev ↔ cfg.no_delete = false ∧ prev = some x := by
  unfold delEvs
  split
  · rename_i hnd
    cases prev <;> simp [hnd]
    exact eq_comm
  · rename_i hnd
    simp
    intro hc
    exact absurd hc hnd

theorem deleted_mem_playSeg_iff (cfg : Config) (p pc : Nat) (prev : Option Nat) (x : Nat) :
    Ev.deleted x ∈ playSeg cfg p pc prev ↔ cfg.no_delete = false ∧ prev = some x := by
  rw [← deleted_mem_delEvs_iff cfg prev x]
  rcases jingleEvs_cases cfg pc with hj | ⟨j, hj⟩ <;> simp [playSeg, hj]

/-- All-success loop interrupted from check `s` on (the SIGINT lands during
the playback of 0-indexed item `s - 1`, after check `s - 1` passed): items
up to `s - 1` play, the play count gains `s - st.idx`, and no download is
run on any item with index beyond `s`. -/
theorem mainLoop_stop (cfg : Config) (n s : Nat)
    (hf : ∀ i, cfg.fetchOk i = true) (hs : cfg.stopFrom = some s) (hsn : s < n) :
    ∀ fuel st, n - st.idx ≤ fuel → st.idx < s → st.checks = st.idx →
      ((mainLoop cfg n fuel st (fetchRes cfg st.idx)).2).play_count
          = st.play_count + (s - st.idx) ∧
      Ev.playEnd (s - 1) ∈ (mainLoop cfg n fuel st (fetchRes cfg st.idx)).1 ∧
      (∀ i, Ev.created i ∈ (mainLoop cfg n fuel st (fetchRes cfg st.idx)).1 → i ≤ s) ∧
      (∀ i, Ev.fetchFail i ∉ (mainLoop cfg n fuel st (fetchRes cfg st.idx)).1) := by
  intro fuel
  induction fuel with
  | zero => intro st hfu hi hc; omega
  | succ fuel ih =>
    intro st hfu hi hc
    have h : ¬(stopped cfg st.checks = true ∨ n ≤ st.idx) := by
      simp [stopped, hs, hc]
      omega
    have hdl : fetchRes cfg st.idx = some st.idx := by simp [fetchRes, hf]
    have hfh : fetchHead cfg (st.idx + 1) = Ev.created (st.idx + 1) := by
      simp [fetchHead, hf]
    have h2 : st.idx + 1 < n := by omega
    rw [hdl, mainLoop_play_cont cfg n fuel st st.idx h h2]
    by_cases hcase : st.idx + 1 = s
    · have hstop2 : stopped cfg (st.checks + 1) = true := by
        simp [stopped, hs]
        omega
      have hcont : mainLoop cfg n fuel
          ⟨st.idx + 1, some st.idx, st.play_count + 1, st.checks + 1⟩
          (fetchRes cfg (st.idx + 1))
          = ([], ⟨st.idx + 1, some st.idx, st.play_count + 1, st.checks + 1⟩) := by
        cases fuel with
        | zero => exact mainLoop_zero cfg n _ _
        | succ f => exact mainLoop_exit cfg n f _ _ (Or.inl hstop2)
      rw [hcont]
      refine ⟨by simp; omega, ?_, ?_, ?_⟩
      · have hx : s - 1 = st.idx := by omega
        simp only [hx, List.mem_cons]
        right
        simp [List.mem_append, playEnd_mem_playSeg_iff]
      · intro i hm
        simp only [hfh, List.mem_cons, List.mem_append] at hm
        rcases hm with hm | hm
        · simp at hm
          omega
        · rcases hm with hm | hm
          · exact absurd hm (created_not_mem_playSeg cfg st.idx (st.play_count + 1)
              st.prev_song i)
          · simp at hm
      · intro i hm
        simp only [hfh, List.mem_cons, List.mem_append] at hm
        rcases hm with hm | hm
        · simp at hm
        · rcases hm with hm | hm
          · exact absurd hm (fetchFail_not_mem_playSeg cfg st.idx (st.play_count + 1)
              st.prev_song i)
          · simp at hm
    · have hdl2 : fetchRes cfg (st.idx + 1) = some (st.idx + 1) := by simp [fetchRes, hf]
      have hrec := ih ⟨st.idx + 1, some st.idx, st.play_count + 1, st.checks + 1⟩
        (by simp; omega) (by simp; omega) (by simp [hc])
      rw [hdl2] at hrec ⊢
      obtain ⟨hpc, hpe, hcr, hff⟩ := hrec
      simp only at hpc hpe hcr hff
      refine ⟨by rw [hpc]; omega, ?_, ?_, ?_⟩
      · simp only [List.mem_cons, List.mem_append]
        right
        right
        exact hpe
      · intro i hm
        simp only [hfh, List.mem_cons, List.mem_append] at hm
        rcases hm with hm | hm
        · simp at hm
          omega
        · rcases hm with hm | hm
          · exact absurd hm (created_not_mem_playSeg cfg st.idx (st.play_count + 1)
              st.prev_song i)
          · exact hcr i hm
      · intro i hm
        simp only [hfh, List.mem_cons, List.mem_append] at hm
        rcases hm with hm | hm
        · simp at hm
        · rcases hm with hm | hm
          · exact absurd hm (fetchFail_not_mem_playSeg cfg st.idx (st.play_count + 1)
              st.prev_song i)
          · exact hff i hm

@[simp]
theorem deletedSeq_cons_skipped (i : Nat) (l : List Ev) :
    deletedSeq (Ev.skipped i :: l) = deletedSeq l := by
  simp [deletedSeq, List.filterMap_cons]

@[simp]
theorem deletedSeq_cons_fetchHead (cfg : Config) (i : Nat) (l : List Ev) :
    deletedSeq (fetchHead cfg i :: l) = deletedSeq l := by
  simp [deletedSeq, List.filterMap_cons]

@[simp]
theorem playedSeq_cons_skipped (i : Nat) (l : List Ev) :
    playedSeq (Ev.skipped i :: l) = playedSeq l := by
  simp [playedSeq, List.filterMap_cons]

@[simp]
theorem playedSeq_cons_fetchHead (cfg : Config) (i : Nat) (l : List Ev) :
    playedSeq (fetchHead cfg i :: l) = playedSeq l := by
  simp [playedSeq, List.filterMap_cons]

theorem playedSeq_playSeg_append (cfg : Config) (p pc : Nat) (prev : Option Nat) (l : List Ev) :
    playedSeq (playSeg cfg p pc prev ++ l) = p :: playedSeq l := by
  rw [playedSeq_append, playedSeq_playSeg]
  rfl

/-- With retention on, the delete step removes exactly the remembered
previous song. -/
theorem deletedSeq_delEvs_retention (cfg : Config) (prev : Option Nat)
    (hnd : cfg.no_delete = false) : deletedSeq (delEvs cfg prev) = prev.toList := by
  unfold delEvs
  rw [if_pos hnd]
  cases prev <;> rfl

/-- Rolling-delete characterization: with retention on, the files deleted by
the loop, in order, are exactly the previously remembered song followed by
the items the loop plays, minus the most recent play (which is never
deleted). -/
theorem mainLoop_deletedSeq (cfg : Config) (n : Nat) (hnd : cfg.no_delete = false) :
    ∀ fuel st dl,
      deletedSeq (mainLoop cfg n fuel st dl).1
        = (st.prev_song.toList ++ playedSeq (mainLoop cfg n fuel st dl).1).dropLast := by
  intro fuel
  induction fuel with
  | zero =>
    intro st dl
    cases hp : st.prev_song <;> simp [mainLoop_zero, deletedSeq, playedSeq, hp]
  | succ fuel ih =>
    intro st dl
    by_cases h : stopped cfg st.checks = true ∨ n ≤ st.idx
    · rw [mainLoop_exit cfg n fuel st dl h]
      cases hp : st.prev_song <;> simp [deletedSeq, playedSeq, hp]
    · cases dl with
      | none =>
        by_cases h2 : st.idx + 1 < n
        · rw [mainLoop_skip_cont cfg n fuel st h h2]
          rw [deletedSeq_cons_skipped, deletedSeq_cons_fetchHead,
            playedSeq_cons_skipped, playedSeq_cons_fetchHead]
          exact ih ⟨st.idx + 1, st.prev_song, st.play_count, st.checks + 1⟩
            (fetchRes cfg (st.idx + 1))
        · rw [mainLoop_skip_last cfg n fuel st h h2]
          cases hp : st.prev_song <;> simp [deletedSeq, playedSeq, hp]
      | some p =>
        by_cases h2 : st.idx + 1 < n
        · rw [mainLoop_play_cont cfg n fuel st p h h2]
          rw [deletedSeq_cons_fetchHead, playedSeq_cons_fetchHead,
            deletedSeq_append, deletedSeq_playSeg,
            deletedSeq_delEvs_retention cfg st.prev_song hnd,
            playedSeq_playSeg_append]
          have hih := ih ⟨st.idx + 1, some p, st.play_count + 1, st.checks + 1⟩
            (fetchRes cfg (st.idx + 1))
          simp only [Option.toList] at hih
          rw [hih]
          cases hp : st.prev_song with
          | none => simp
          | some q => simp [List.dropLast_cons₂]
        · rw [mainLoop_play_last cfg n fuel st p h h2]
          rw [deletedSeq_playSeg, deletedSeq_delEvs_retention cfg st.prev_song hnd,
            playedSeq_playSeg]
          rw [List.dropLast_concat]

/-- Rolling-delete characterization over a whole run: the deleted files,
in order, are exactly the played items minus the last one. -/
theorem mainRun_deletedSeq (cfg : Config) (n : Nat) (hnd : cfg.no_delete = false) :
    deletedSeq (mainRun cfg n).1 = (playedSeq (mainRun cfg n).1).dropLast := by
  rw [mainRun_fst, deletedSeq_cons_fetchHead, playedSeq_cons_fetchHead]
  have := mainLoop_deletedSeq cfg n hnd n initSt (fetchRes cfg 0)
  simpa [initSt] using this

theorem fetchHead_ne_playEnd (cfg : Config) (i x : Nat) : fetchHead cfg i ≠ Ev.playEnd x := by
  unfold fetchHead
  split <;> simp

theorem fetchHead_ne_playStart (cfg : Config) (i x : Nat) :
    fetchHead cfg i ≠ Ev.playStart x := by
  unfold fetchHead
  split <;> simp

theorem fetchHead_ne_deleted (cfg : Config) (i x : Nat) : fetchHead cfg i ≠ Ev.deleted x := by
  unfold fetchHead
  split <;> simp

/-- A `playEnd` event is in a trace iff its index is among the played ones. -/
theorem playEnd_mem_iff (tr : List Ev) (x : Nat) :
    Ev.playEnd x ∈ tr ↔ x ∈ playedSeq tr := by
  unfold playedSeq
  rw [List.mem_filterMap]
  constructor
  · intro h
    exact ⟨_, h, rfl⟩
  · rintro ⟨e, he, hx⟩
    cases e <;> simp [playIdx] at hx
    rwa [hx] at he

/-- A `deleted` event is in a trace iff its index is among the deleted ones. -/
theorem deleted_mem_iff (tr : List Ev) (x : Nat) :
    Ev.deleted x ∈ tr ↔ x ∈ deletedSeq tr := by
  unfold deletedSeq
  rw [List.mem_filterMap]
  constructor
  · intro h
    exact ⟨_, h, rfl⟩
  · rintro ⟨e, he, hx⟩
    cases e <;> simp [delIdx] at hx
    rwa [hx] at he

/-- Playback order: the loop plays strictly increasing queue indices, all at
or beyond the current cursor. -/
theorem mainLoop_playedSeq_chain (cfg : Config) (n : Nat) :
    ∀ fuel st,
      List.Chain' (· < ·) (playedSeq (mainLoop cfg n fuel st (fetchRes cfg st.idx)).1) ∧
      ∀ x ∈ playedSeq (mainLoop cfg n fuel st (fetchRes cfg st.idx)).1, st.idx ≤ x := by
  intro fuel
  induction fuel with
  | zero => intro st; simp [mainLoop_zero, playedSeq]
  | succ fuel ih =>
    intro st
    by_cases h : stopped cfg st.checks = true ∨ n ≤ st.idx
    · rw [mainLoop_exit cfg n fuel st _ h]
      simp [playedSeq]
    · cases hok : cfg.fetchOk st.idx with
      | false =>
        have hdl : fetchRes cfg st.idx = none := by simp [fetchRes, hok]
        rw [hdl]
        by_cases h2 : st.idx + 1 < n
        · rw [mainLoop_skip_cont cfg n fuel st h h2]
          rw [playedSeq_cons_skipped, playedSeq_cons_fetchHead]
          have hih := ih ⟨st.idx + 1, st.prev_song, st.play_count, st.checks + 1⟩
          simp only at hih
          exact ⟨hih.1, fun x hx => by have := hih.2 x hx; omega⟩
        · rw [mainLoop_skip_last cfg n fuel st h h2]
          simp [playedSeq]
      | true =>
        have hdl : fetchRes cfg st.idx = some st.idx := by simp [fetchRes, hok]
        rw [hdl]
        by_cases h2 : st.idx + 1 < n
        · rw [mainLoop_play_cont cfg n fuel st st.idx h h2]
          rw [playedSeq_cons_fetchHead, playedSeq_playSeg_append]
          have hih := ih ⟨st.idx + 1, some st.idx, st.play_count + 1, st.checks + 1⟩
          simp only at hih
          constructor
          · rw [List.chain'_cons']
            refine ⟨?_, hih.1⟩
            intro y hy
            have hmem : y ∈ playedSeq (mainLoop cfg n fuel
                ⟨st.idx + 1, some st.idx, st.play_count + 1, st.checks + 1⟩
                (fetchRes cfg (st.idx + 1))).1 := by
              cases hps : playedSeq (mainLoop cfg n fuel
                  ⟨st.idx + 1, some st.idx, st.play_count + 1, st.checks + 1⟩
                  (fetchRes cfg (st.idx + 1))).1 with
              | nil => rw [hps] at hy; simp at hy
              | cons a t =>
                rw [hps] at hy
                simp at hy
                exact List.mem_cons.mpr (Or.inl hy.symm)
            have := hih.2 y hmem
            omega
          · intro x hx
            rcases List.mem_cons.mp hx with hx | hx
            · omega
            · have := hih.2 x hx
              omega
        · rw [mainLoop_play_last cfg n fuel st st.idx h h2]
          rw [playedSeq_playSeg]
          refine ⟨List.chain'_singleton _, ?_⟩
          intro x hx
          simp at hx
          omega

/-- The played indices of a run form a strictly increasing, duplicate-free
sequence. -/
theorem mainRun_playedSeq_nodup (cfg : Config) (n : Nat) :
    (playedSeq (mainRun cfg n).1).Nodup := by
  have hch : List.Chain' (· < ·) (playedSeq (mainRun cfg n).1) := by
    rw [mainRun_fst, playedSeq_cons_fetchHead]
    have := (mainLoop_playedSeq_chain cfg n n initSt).1
    simpa [initSt] using this
  have hpw := List.chain'_iff_pairwise.mp hch
  exact hpw.imp Nat.ne_of_lt

/-- Every item the loop plays was downloaded: its file-creation event is in
the trace (either emitted by the caller for the entry item, or inside). -/
theorem mainLoop_played_created (cfg : Config) (n : Nat) :
    ∀ fuel st x, Ev.playEnd x ∈ (mainLoop cfg n fuel st (fetchRes cfg st.idx)).1 →
      (x = st.idx ∧ cfg.fetchOk st.idx = true) ∨
        Ev.created x ∈ (mainLoop cfg n fuel st (fetchRes cfg st.idx)).1 := by
  intro fuel
  induction fuel with
  | zero => intro st x hx; simp [mainLoop_zero] at hx
  | succ fuel ih =>
    intro st x hx
    by_cases h : stopped cfg st.checks = true ∨ n ≤ st.idx
    · rw [mainLoop_exit cfg n fuel st _ h] at hx
      simp at hx
    · cases hok : cfg.fetchOk st.idx with
      | false =>
        have hdl : fetchRes cfg st.idx = none := by simp [fetchRes, hok]
        rw [hdl] at hx ⊢
        by_cases h2 : st.idx + 1 < n
        · rw [mainLoop_skip_cont cfg n fuel st h h2] at hx ⊢
          simp only [List.mem_cons] at hx
          rcases hx with hx | hx | hx
          · simp at hx
          · exact absurd hx.symm (fetchHead_ne_playEnd cfg (st.idx + 1) x)
          · have hih := ih ⟨st.idx + 1, st.prev_song, st.play_count, st.checks + 1⟩ x
            simp only at hih
            rcases hih hx with ⟨hx1, hx2⟩ | hcr
            · refine Or.inr ?_
              have : fetchHead cfg (st.idx + 1) = Ev.created (st.idx + 1) := by
                simp [fetchHead, hx2]
              rw [this, hx1]
              exact List.mem_cons_of_mem _ (List.mem_cons_self _ _)
            · exact Or.inr (List.mem_cons_of_mem _ (List.mem_cons_of_mem _ hcr))
        · rw [mainLoop_skip_last cfg n fuel st h h2] at hx
          simp at hx
      | true =>
        have hdl : fetchRes cfg st.idx = some st.idx := by simp [fetchRes, hok]
        rw [hdl] at hx ⊢
        by_cases h2 : st.idx + 1 < n
        · rw [mainLoop_play_cont cfg n fuel st st.idx h h2] at hx ⊢
          simp only [List.mem_cons, List.mem_append] at hx
          rcases hx with hx | hx | hx
          · exact absurd hx.symm (fetchHead_ne_playEnd cfg (st.idx + 1) x)
          · rw [playEnd_mem_playSeg_iff] at hx
            exact Or.inl ⟨hx, rfl⟩
          · have hih := ih ⟨st.idx + 1, some st.idx, st.play_count + 1, st.checks + 1⟩ x
            simp only at hih
            rcases hih hx with ⟨hx1, hx2⟩ | hcr
            · refine Or.inr ?_
              have : fetchHead cfg (st.idx + 1) = Ev.created (st.idx + 1) := by
                simp [fetchHead, hx2]
              rw [this, hx1]
              exact List.mem_cons_self _ _
            · exact Or.inr (List.mem_cons_of_mem _ (List.mem_append_right _ hcr))
        · rw [mainLoop_play_last cfg n fuel st st.idx h h2] at hx
          rw [playEnd_mem_playSeg_iff] at hx
          exact Or.inl ⟨hx, rfl⟩

/-- Every played item's file-creation event is in the run's trace. -/
theorem mainRun_played_created (cfg : Config) (n : Nat) (x : Nat)
    (hx : Ev.playEnd x ∈ (mainRun cfg n).1) : Ev.created x ∈ (mainRun cfg n).1 := by
  rw [mainRun_fst] at hx ⊢
  rcases List.mem_cons.mp hx with hx | hx
  · exact absurd hx.symm (fetchHead_ne_playEnd cfg 0 x)
  · have hih := mainLoop_played_created cfg n n initSt x
    simp only [initSt] at hih hx
    rcases hih hx with ⟨hx1, hx2⟩ | hcr
    · have : fetchHead cfg 0 = Ev.created 0 := by simp [fetchHead, hx2]
      rw [this, hx1]
      exact List.mem_cons_self _ _
    · exact List.mem_cons_of_mem _ hcr

/-- C10: with retention enabled, deletion only ever targets a previously
played item other than the most recent one — the deleted sequence is
exactly the played sequence minus its last element — so at every
termination the last played item's file was created and never deleted,
i.e. it remains on disk. -/
theorem C10_last_play_retained (cfg : Config) (n : Nat) (hnd : cfg.no_delete = false) :
    deletedSeq (mainRun cfg n).1 = (playedSeq (mainRun cfg n).1).dropLast ∧
    ∀ x, (playedSeq (mainRun cfg n).1).getLast? = some x →
      Ev.deleted x ∉ (mainRun cfg n).1 ∧ Ev.created x ∈ (mainRun cfg n).1 := by
  refine ⟨mainRun_deletedSeq cfg n hnd, ?_⟩
  intro x hlast
  obtain ⟨ys, hys⟩ := List.getLast?_eq_some_iff.mp hlast
  constructor
  · intro hdel
    rw [deleted_mem_iff, mainRun_deletedSeq cfg n hnd, hys, List.dropLast_concat] at hdel
    have hnd2 := mainRun_playedSeq_nodup cfg n
    rw [hys] at hnd2
    rcases List.nodup_append.mp hnd2 with ⟨-, -, hdisj⟩
    exact hdisj hdel (List.mem_singleton_self x)
  · refine mainRun_played_created cfg n x ?_
    rw [playEnd_mem_iff, hys]
    exact List.mem_append_right _ (List.mem_singleton_self x)

/-- Witness for C10: concrete 3-item run, last played item is 2, its file
is created and never deleted. -/
theorem C10_last_play_retained_witness :
    Ev.deleted 2 ∉ (mainRun cfgAllOk 3).1 ∧ Ev.created 2 ∈ (mainRun cfgAllOk 3).1 :=
  (C10_last_play_retained cfgAllOk 3 rfl).2 2 (by decide)

/-! ### Disk usage bound -/

/-- File contributed to the disk by the remembered previous song. -/
def prevF : Option Nat → Finset Nat
  | some q => {q}
  | none => ∅

/-- File contributed to the disk by the pending download of item `i`. -/
def curF (cfg : Config) (i : Nat) : Finset Nat :=
  if cfg.fetchOk i then {i} else ∅

/-- Every prefix of `tr`, run from disk state `s`, keeps at most 3
source-derived files on disk. -/
def DiskBounded (s : Finset Nat) (tr : List Ev) : Prop :=
  ∀ pre, pre <+: tr → (diskFrom s pre).card ≤ 3

theorem prevF_card (o : Option Nat) : (prevF o).card ≤ 1 := by
  cases o <;> simp [prevF]

theorem curF_card (cfg : Config) (i : Nat) : (curF cfg i).card ≤ 1 := by
  unfold curF
  split <;> simp

theorem diskFrom_nil (s : Finset Nat) : diskFrom s [] = s := rfl

theorem diskFrom_cons (s : Finset Nat) (e : Ev) (tr : List Ev) :
    diskFrom s (e :: tr) = diskFrom (diskStep s e) tr := rfl

theorem diskFrom_append (s : Finset Nat) (l1 l2 : List Ev) :
    diskFrom s (l1 ++ l2) = diskFrom (diskFrom s l1) l2 :=
  List.foldl_append _ _ _ _

theorem diskBounded_nil (s : Finset Nat) (h : s.card ≤ 3) : DiskBounded s [] := by
  intro pre hpre
  rw [List.prefix_nil.mp hpre]
  exact h

theorem diskBounded_cons (s : Finset Nat) (e : Ev) (tr : List Ev) (h : s.card ≤ 3)
    (h2 : DiskBounded (diskStep s e) tr) : DiskBounded s (e :: tr) := by
  intro pre hpre
  rcases List.prefix_cons_iff.mp hpre with rfl | ⟨t, rfl, ht⟩
  · exact h
  · exact h2 t ht

theorem prefix_append_split {α : Type} {pre l1 l2 : List α} (h : pre <+: l1 ++ l2) :
    pre <+: l1 ∨ ∃ p2, pre = l1 ++ p2 ∧ p2 <+: l2 := by
  induction l1 generalizing pre with
  | nil => exact Or.inr ⟨pre, rfl, h⟩
  | cons a l1 ih =>
    rcases List.prefix_cons_iff.mp h with rfl | ⟨t, rfl, ht⟩
    · exact Or.inl ⟨a :: l1, rfl⟩
    · rcases ih ht with h1 | ⟨p2, rfl, hp2⟩
      · exact Or.inl (List.cons_prefix_cons.mpr ⟨rfl, h1⟩)
      · exact Or.inr ⟨p2, rfl, hp2⟩

theorem diskBounded_append (s : Finset Nat) (l1 l2 : List Ev) (h1 : DiskBounded s l1)
    (h2 : DiskBounded (diskFrom s l1) l2) : DiskBounded s (l1 ++ l2) := by
  intro pre hpre
  rcases prefix_append_split hpre with hp | ⟨p2, rfl, hp2⟩
  · exact h1 pre hp
  · rw [diskFrom_append]
    exact h2 p2 hp2

theorem diskFrom_jingleEvs (s : Finset Nat) (cfg : Config) (m : Nat) :
    diskFrom s (jingleEvs cfg m) = s := by
  rcases jingleEvs_cases cfg m with hj | ⟨j, hj⟩ <;> rw [hj] <;> rfl

theorem diskBounded_jingleEvs (s : Finset Nat) (cfg : Config) (m : Nat) (h : s.card ≤ 3) :
    DiskBounded s (jingleEvs cfg m) := by
  rcases jingleEvs_cases cfg m with hj | ⟨j, hj⟩ <;> rw [hj]
  · exact diskBounded_nil s h
  · exact diskBounded_cons s _ [] h (diskBounded_nil _ h)

/-- Running the play/jingle/delete segment erases the previous song (with
retention on) and otherwise leaves the disk unchanged; every intermediate
state stays within the entry bound. -/
theorem diskFrom_playSeg (cfg : Config) (p pc : Nat) (prev : Option Nat) (s : Finset Nat)
    (hnd : cfg.no_delete = false) :
    diskFrom s (playSeg cfg p pc prev)
        = (match prev with | some q => s.erase q | none => s) ∧
      (s.card ≤ 3 → DiskBounded s (playSeg cfg p pc prev)) := by
  have hd : delEvs cfg prev = (match prev with | some q => [Ev.deleted q] | none => []) := by
    unfold delEvs
    rw [if_pos hnd]
  constructor
  · show diskFrom s (Ev.playStart p :: Ev.playEnd p :: (jingleEvs cfg pc ++ delEvs cfg prev)) = _
    rw [diskFrom_cons, diskFrom_cons]
    show diskFrom s (jingleEvs cfg pc ++ delEvs cfg prev) = _
    rw [diskFrom_append, diskFrom_jingleEvs, hd]
    cases prev <;> rfl
  · intro hcard
    apply diskBounded_cons s _ _ hcard
    apply diskBounded_cons s _ _ hcard
    apply diskBounded_append s _ _ (diskBounded_jingleEvs s cfg pc hcard)
    rw [diskFrom_jingleEvs, hd]
    cases prev with
    | none => exact diskBounded_nil s hcard
    | some q =>
      apply diskBounded_cons s _ _ hcard
      apply diskBounded_nil
      calc (s.erase q).card ≤ s.card := Finset.card_erase_le
        _ ≤ 3 := hcard

/-- The invariant disk state at a loop entry has at most 2 files. -/
theorem inv_card {cfg : Config} {st : St} {s : Finset Nat}
    (hs : s = prevF st.prev_song ∪ curF cfg st.idx) : s.card ≤ 2 := by
  rw [hs]
  calc (prevF st.prev_song ∪ curF cfg st.idx).card
      ≤ (prevF st.prev_song).card + (curF cfg st.idx).card := Finset.card_union_le _ _
    _ ≤ 2 := by
        have h1 := prevF_card st.prev_song
        have h2 := curF_card cfg st.idx
        omega

/-- With retention enabled, at most 3 source-derived files ever exist at
once: the two retained ones (previous and current song) plus the prefetched
next file, and the bound drops back to 2 at every iteration boundary. -/
theorem mainLoop_disk_bound (cfg : Config) (n : Nat) (hnd : cfg.no_delete = false) :
    ∀ fuel st s,
      s = prevF st.prev_song ∪ curF cfg st.idx →
      (∀ q, st.prev_song = some q → q < st.idx) →
      DiskBounded s (mainLoop cfg n fuel st (fetchRes cfg st.idx)).1 := by
  intro fuel
  induction fuel with
  | zero =>
    intro st s hs hq
    rw [mainLoop_zero]
    exact diskBounded_nil s (by have := inv_card hs; omega)
  | succ fuel ih =>
    intro st s hs hq
    have hcard : s.card ≤ 3 := by have := inv_card hs; omega
    by_cases h : stopped cfg st.checks = true ∨ n ≤ st.idx
    · rw [mainLoop_exit cfg n fuel st _ h]
      exact diskBounded_nil s hcard
    · cases hok : cfg.fetchOk st.idx with
      | false =>
        have hdl : fetchRes cfg st.idx = none := by simp [fetchRes, hok]
        have hcur : curF cfg st.idx = ∅ := by simp [curF, hok]
        rw [hdl]
        have hs2 : s = prevF st.prev_song := by rw [hs, hcur, Finset.union_empty]
        by_cases h2 : st.idx + 1 < n
        · rw [mainLoop_skip_cont cfg n fuel st h h2]
          apply diskBounded_cons s _ _ hcard
          show DiskBounded s (fetchHead cfg (st.idx + 1) :: _)
          apply diskBounded_cons s _ _ hcard
          have hstep : diskStep s (fetchHead cfg (st.idx + 1))
              = prevF st.prev_song ∪ curF cfg (st.idx + 1) := by
            unfold fetchHead curF
            split
            · rw [hs2]
              show insert (st.idx + 1) (prevF st.prev_song) = _
              rw [Finset.insert_eq, Finset.union_comm]
            · rw [hs2, Finset.union_empty]
              rfl
          rw [hstep]
          exact ih ⟨st.idx + 1, st.prev_song, st.play_count, st.checks + 1⟩ _ rfl
            (fun q hq2 => by have := hq q hq2; simp at hq2 ⊢; omega)
        · rw [mainLoop_skip_last cfg n fuel st h h2]
          apply diskBounded_cons s _ _ hcard
          exact diskBounded_nil s hcard
      | true =>
        have hdl : fetchRes cfg st.idx = some st.idx := by simp [fetchRes, hok]
        have hcur : curF cfg st.idx = {st.idx} := by simp [curF, hok]
        rw [hdl]
        by_cases h2 : st.idx + 1 < n
        · rw [mainLoop_play_cont cfg n fuel st st.idx h h2]
          apply diskBounded_cons s _ _ hcard
          have hstep : diskStep s (fetchHead cfg (st.idx + 1))
              = s ∪ curF cfg (st.idx + 1) := by
            unfold fetchHead curF
            split
            · show insert (st.idx + 1) s = _
              rw [Finset.insert_eq, Finset.union_comm]
            · rw [Finset.union_empty]
              rfl
          rw [hstep]
          have hcard1 : (s ∪ curF cfg (st.idx + 1)).card ≤ 3 := by
            calc (s ∪ curF cfg (st.idx + 1)).card
                ≤ s.card + (curF cfg (st.idx + 1)).card := Finset.card_union_le _ _
              _ ≤ 3 := by
                  have := inv_card hs
                  have := curF_card cfg (st.idx + 1)
                  omega
          obtain ⟨hrun, hbnd⟩ := diskFrom_playSeg cfg st.idx (st.play_count + 1)
            st.prev_song (s ∪ curF cfg (st.idx + 1)) hnd
          apply diskBounded_append _ _ _ (hbnd hcard1)
          rw [hrun]
          have hafter : (match st.prev_song with
              | some q => (s ∪ curF cfg (st.idx + 1)).erase q
              | none => s ∪ curF cfg (st.idx + 1))
              = prevF (some st.idx) ∪ curF cfg (st.idx + 1) := by
            cases hp : st.prev_song with
            | none =>
              rw [hs, hcur, hp]
              show prevF none ∪ {st.idx} ∪ curF cfg (st.idx + 1) = _
              simp [prevF]
            | some q =>
              have hqlt : q < st.idx := hq q hp
              rw [hs, hcur, hp]
              ext a
              unfold curF
              by_cases hok2 : cfg.fetchOk (st.idx + 1) = true <;>
                simp [prevF, hok2, Finset.mem_erase, Finset.mem_union] <;> omega
          rw [hafter]
          exact ih ⟨st.idx + 1, some st.idx, st.play_count + 1, st.checks + 1⟩ _ rfl
            (fun q hq2 => by simp at hq2 ⊢; omega)
        · rw [mainLoop_play_last cfg n fuel st st.idx h h2]
          exact (diskFrom_playSeg cfg st.idx (st.play_count + 1) st.prev_song s hnd).2 hcard

/-- Disk bound over a whole run from an empty cache. -/
theorem mainRun_disk_bound (cfg : Config) (n : Nat) (hnd : cfg.no_delete = false) :
    ∀ pre, pre <+: (mainRun cfg n).1 → (disk pre).card ≤ 3 := by
  have hb : DiskBounded ∅ (mainRun cfg n).1 := by
    rw [mainRun_fst]
    apply diskBounded_cons ∅ _ _ (by simp)
    have hstep : diskStep ∅ (fetchHead cfg 0) = prevF none ∪ curF cfg 0 := by
      unfold fetchHead curF
      split
      · show insert 0 ∅ = _
        simp [prevF]
      · simp [prevF]
        rfl
    rw [hstep]
    exact mainLoop_disk_bound cfg n hnd n initSt _ rfl (fun q hq => by simp [initSt] at hq)
  exact hb

/-- Every `playStart` the loop emits concerns an item at or beyond the
current cursor. -/
theorem mainLoop_playStart_lb (cfg : Config) (n : Nat) :
    ∀ fuel st x, Ev.playStart x ∈ (mainLoop cfg n fuel st (fetchRes cfg st.idx)).1 →
      st.idx ≤ x := by
  intro fuel
  induction fuel with
  | zero => intro st x hx; simp [mainLoop_zero] at hx
  | succ fuel ih =>
    intro st x hx
    by_cases h : stopped cfg st.checks = true ∨ n ≤ st.idx
    · rw [mainLoop_exit cfg n fuel st _ h] at hx
      simp at hx
    · cases hok : cfg.fetchOk st.idx with
      | false =>
        have hdl : fetchRes cfg st.idx = none := by simp [fetchRes, hok]
        rw [hdl] at hx
        by_cases h2 : st.idx + 1 < n
        · rw [mainLoop_skip_cont cfg n fuel st h h2] at hx
          simp only [List.mem_cons] at hx
          rcases hx with hx | hx | hx
          · simp at hx
          · exact absurd hx.symm (fetchHead_ne_playStart cfg (st.idx + 1) x)
          · have := ih ⟨st.idx + 1, st.prev_song, st.play_count, st.checks + 1⟩ x hx
            simp only at this
            omega
        · rw [mainLoop_skip_last cfg n fuel st h h2] at hx
          simp at hx
      | true =>
        have hdl : fetchRes cfg st.idx = some st.idx := by simp [fetchRes, hok]
        rw [hdl] at hx
        by_cases h2 : st.idx + 1 < n
        · rw [mainLoop_play_cont cfg n fuel st st.idx h h2] at hx
          simp only [List.mem_cons, List.mem_append] at hx
          rcases hx with hx | hx | hx
          · exact absurd hx.symm (fetchHead_ne_playStart cfg (st.idx + 1) x)
          · rw [playStart_mem_playSeg_iff] at hx
            omega
          · have := ih ⟨st.idx + 1, some st.idx, st.play_count + 1, st.checks + 1⟩ x hx
            simp only at this
            omega
        · rw [mainLoop_play_last cfg n fuel st st.idx h h2] at hx
          rw [playStart_mem_playSeg_iff] at hx
          omega

/-- Every `playEnd` the loop emits concerns an item at or beyond the
current cursor. -/
theorem mainLoop_playEnd_lb (cfg : Config) (n : Nat) (fuel : Nat) (st : St) (x : Nat)
    (hx : Ev.playEnd x ∈ (mainLoop cfg n fuel st (fetchRes cfg st.idx)).1) : st.idx ≤ x := by
  have h := (mainLoop_playedSeq_chain cfg n fuel st).2 x
  rw [← playEnd_mem_iff] at h
  exact h hx

/-- Prefetch order: inside the loop, whenever item `i` is played and item
`i + 1` exists, item `i + 1`'s download event precedes item `i`'s
`playStart` in the trace. -/
theorem mainLoop_prefetch_order (cfg : Config) (n : Nat) :
    ∀ fuel st i, Ev.playStart i ∈ (mainLoop cfg n fuel st (fetchRes cfg st.idx)).1 →
      i + 1 < n →
      List.Sublist [fetchHead cfg (i + 1), Ev.playStart i]
        (mainLoop cfg n fuel st (fetchRes cfg st.idx)).1 := by
  intro fuel
  induction fuel with
  | zero => intro st i hx h2; simp [mainLoop_zero] at hx
  | succ fuel ih =>
    intro st i hx h2
    by_cases h : stopped cfg st.checks = true ∨ n ≤ st.idx
    · rw [mainLoop_exit cfg n fuel st _ h] at hx
      simp at hx
    · cases hok : cfg.fetchOk st.idx with
      | false =>
        have hdl : fetchRes cfg st.idx = none := by simp [fetchRes, hok]
        rw [hdl] at hx ⊢
        by_cases hn2 : st.idx + 1 < n
        · rw [mainLoop_skip_cont cfg n fuel st h hn2] at hx ⊢
          simp only [List.mem_cons] at hx
          rcases hx with hx | hx | hx
          · simp at hx
          · exact absurd hx.symm (fetchHead_ne_playStart cfg (st.idx + 1) i)
          · have hih := ih ⟨st.idx + 1, st.prev_song, st.play_count, st.checks + 1⟩ i hx h2
            simp only at hih
            exact (hih.cons _).cons _
        · rw [mainLoop_skip_last cfg n fuel st h hn2] at hx
          simp at hx
      | true =>
        have hdl : fetchRes cfg st.idx = some st.idx := by simp [fetchRes, hok]
        rw [hdl] at hx ⊢
        by_cases hn2 : st.idx + 1 < n
        · rw [mainLoop_play_cont cfg n fuel st st.idx h hn2] at hx ⊢
          simp only [List.mem_cons, List.mem_append] at hx
          rcases hx with hx | hx | hx
          · exact absurd hx.symm (fetchHead_ne_playStart cfg (st.idx + 1) i)
          · rw [playStart_mem_playSeg_iff] at hx
            rw [hx]
            rw [List.cons_sublist_cons]
            rw [List.singleton_sublist]
            apply List.mem_append_left
            rw [playStart_mem_playSeg_iff]
          · have hih := ih ⟨st.idx + 1, some st.idx, st.play_count + 1, st.checks + 1⟩ i hx h2
            simp only at hih
            exact hih.trans ((List.sublist_append_right _ _).cons _)
        · rw [mainLoop_play_last cfg n fuel st st.idx h hn2] at hx
          rw [playStart_mem_playSeg_iff] at hx
          omega

/-- Playback order: inside the loop, item `i`'s `playEnd` precedes item
`j`'s `playStart` whenever `i < j` and both occur. -/
theorem mainLoop_play_order (cfg : Config) (n : Nat) :
    ∀ fuel st i j, i < j →
      Ev.playEnd i ∈ (mainLoop cfg n fuel st (fetchRes cfg st.idx)).1 →
      Ev.playStart j ∈ (mainLoop cfg n fuel st (fetchRes cfg st.idx)).1 →
      List.Sublist [Ev.playEnd i, Ev.playStart j]
        (mainLoop cfg n fuel st (fetchRes cfg st.idx)).1 := by
  intro fuel
  induction fuel with
  | zero => intro st i j hij hi hj; simp [mainLoop_zero] at hi
  | succ fuel ih =>
    intro st i j hij hi hj
    by_cases h : stopped cfg st.checks = true ∨ n ≤ st.idx
    · rw [mainLoop_exit cfg n fuel st _ h] at hi
      simp at hi
    · cases hok : cfg.fetchOk st.idx with
      | false =>
        have hdl : fetchRes cfg st.idx = none := by simp [fetchRes, hok]
        rw [hdl] at hi hj ⊢
        by_cases hn2 : st.idx + 1 < n
        · rw [mainLoop_skip_cont cfg n fuel st h hn2] at hi hj ⊢
          simp only [List.mem_cons] at hi hj
          rcases hi with hi | hi | hi
          · simp at hi
          · exact absurd hi.symm (fetchHead_ne_playEnd cfg (st.idx + 1) i)
          · rcases hj with hj | hj | hj
            · simp at hj
            · exact absurd hj.symm (fetchHead_ne_playStart cfg (st.idx + 1) j)
            · have hih := ih ⟨st.idx + 1, st.prev_song, st.play_count, st.checks + 1⟩
                i j hij hi hj
              simp only at hih
              exact (hih.cons _).cons _
        · rw [mainLoop_skip_last cfg n fuel st h hn2] at hi
          simp at hi
      | true =>
        have hdl : fetchRes cfg st.idx = some st.idx := by simp [fetchRes, hok]
        rw [hdl] at hi hj ⊢
        by_cases hn2 : st.idx + 1 < n
        · rw [mainLoop_play_cont cfg n fuel st st.idx h hn2] at hi hj ⊢
          simp only [List.mem_cons, List.mem_append] at hi hj
          have hjtr : Ev.playStart j ∈ (mainLoop cfg n fuel
              ⟨st.idx + 1, some st.idx, st.play_count + 1, st.checks + 1⟩
              (fetchRes cfg (st.idx + 1))).1 := by
            rcases hj with hj | hj | hj
            · exact absurd hj.symm (fetchHead_ne_playStart cfg (st.idx + 1) j)
            · rw [playStart_mem_playSeg_iff] at hj
              rcases hi with hi | hi | hi
              · exact absurd hi.symm (fetchHead_ne_playEnd cfg (st.idx + 1) i)
              · rw [playEnd_mem_playSeg_iff] at hi
                omega
              · have := mainLoop_playEnd_lb cfg n fuel
                  ⟨st.idx + 1, some st.idx, st.play_count + 1, st.checks + 1⟩ i hi
                simp only at this
                omega
            · exact hj
          rcases hi with hi | hi | hi
          · exact absurd hi.symm (fetchHead_ne_playEnd cfg (st.idx + 1) i)
          · rw [playEnd_mem_playSeg_iff] at hi
            apply List.Sublist.cons
            have hseg : List.Sublist [Ev.playEnd i]
                (playSeg cfg st.idx (st.play_count + 1) st.prev_song) := by
              rw [List.singleton_sublist, hi, playEnd_mem_playSeg_iff]
            have htr : List.Sublist [Ev.playStart j] (mainLoop cfg n fuel
                ⟨st.idx + 1, some st.idx, st.play_count + 1, st.checks + 1⟩
                (fetchRes cfg (st.idx + 1))).1 := by
              rw [List.singleton_sublist]
              exact hjtr
            exact hseg.append htr
          · have hih := ih ⟨st.idx + 1, some st.idx, st.play_count + 1, st.checks + 1⟩
              i j hij hi hjtr
            simp only at hih
            exact hih.trans ((List.sublist_append_right _ _).cons _)
        · rw [mainLoop_play_last cfg n fuel st st.idx h hn2] at hi hj
          rw [playEnd_mem_playSeg_iff] at hi
          rw [playStart_mem_playSeg_iff] at hj
          omega

/-- C7: the queue head's download runs to completion before any playback
(it is the very first event, and item 0's fetch event precedes every
`playStart`); for every played item `i` with a successor in the queue, item
`i + 1`'s download event precedes item `i`'s `playStart` (prefetch is
submitted before playback starts); playbacks never overlap or reorder —
item `i`'s `playEnd` precedes item `j`'s `playStart` for all `i < j`; and
the single background slot runs the downloader on consecutive queue indices
starting at 0, at most once per item (prefetch depth one). -/
theorem C7_prefetch_protocol (cfg : Config) (n : Nat) :
    ((mainRun cfg n).1.head? = some (fetchHead cfg 0) ∧
      ∀ x, Ev.playStart x ∈ (mainRun cfg n).1 →
        List.Sublist [fetchHead cfg 0, Ev.playStart x] (mainRun cfg n).1) ∧
    (∀ i, Ev.playStart i ∈ (mainRun cfg n).1 → i + 1 < n →
      List.Sublist [fetchHead cfg (i + 1), Ev.playStart i] (mainRun cfg n).1) ∧
    (∀ i j, i < j → Ev.playEnd i ∈ (mainRun cfg n).1 →
      Ev.playStart j ∈ (mainRun cfg n).1 →
      List.Sublist [Ev.playEnd i, Ev.playStart j] (mainRun cfg n).1) ∧
    (∃ k, fetchSeq (mainRun cfg n).1 = List.range' 0 k) ∧
    (∀ i, (fetchSeq (mainRun cfg n).1).count i ≤ 1) := by
  have hnotstart : ∀ x, Ev.playStart x ∈ (mainRun cfg n).1 →
      Ev.playStart x ∈ (mainLoop cfg n n initSt (fetchRes cfg 0)).1 := by
    intro x hx
    rw [mainRun_fst] at hx
    rcases List.mem_cons.mp hx with hx | hx
    · exact absurd hx.symm (fetchHead_ne_playStart cfg 0 x)
    · exact hx
  have hnotend : ∀ x, Ev.playEnd x ∈ (mainRun cfg n).1 →
      Ev.playEnd x ∈ (mainLoop cfg n n initSt (fetchRes cfg 0)).1 := by
    intro x hx
    rw [mainRun_fst] at hx
    rcases List.mem_cons.mp hx with hx | hx
    · exact absurd hx.symm (fetchHead_ne_playEnd cfg 0 x)
    · exact hx
  refine ⟨⟨by rw [mainRun_fst]; rfl, ?_⟩, ?_, ?_, mainRun_fetchSeq cfg n,
    mainRun_fetch_once cfg n⟩
  · intro x hx
    rw [mainRun_fst]
    rw [List.cons_sublist_cons, List.singleton_sublist]
    exact hnotstart x hx
  · intro i hx h2
    rw [mainRun_fst]
    have := mainLoop_prefetch_order cfg n n initSt i (hnotstart i hx) h2
    exact this.cons _
  · intro i j hij hi hj
    rw [mainRun_fst]
    have := mainLoop_play_order cfg n n initSt i j hij (hnotend i hi) (hnotstart j hj)
    exact this.cons _

/-- Counterexample to C2's "at most 2 source-derived files at any
steady-state instant": in a 3-item all-success run with retention on, right
after item 2's prefetch lands (while item 1's playback is beginning and item
0's file has not yet been deleted), the trace prefix of length 5 leaves 3
source files on disk. -/
theorem C2_counterexample :
    (disk ((mainRun cfgAllOk 3).1.take 5)).card = 3 ∧
      (mainRun cfgAllOk 3).1.take 5 =
        [Ev.created 0, Ev.created 1, Ev.playStart 0, Ev.playEnd 0, Ev.created 2] ∧
      (mainRun cfgAllOk 3).1.take 5 <+: (mainRun cfgAllOk 3).1 := by decide

/-- C2 (amended): with retention enabled, when item K+1's resource is
obtained and about to play, the file deleted is the one of item K-1 (two
steps back), never K's — the deleted sequence is exactly the played
sequence minus its last element; at most 3 source-derived files exist at
any instant (2 retained plus the in-flight prefetch; the claimed bound 2
holds only at iteration boundaries); and deletion only ever targets a
previously played source item, so filler files are never deleted. -/
theorem C2_retention_bound (cfg : Config) (n : Nat) (hnd : cfg.no_delete = false) :
    (∀ pre, pre <+: (mainRun cfg n).1 → (disk pre).card ≤ 3) ∧
    deletedSeq (mainRun cfg n).1 = (playedSeq (mainRun cfg n).1).dropLast ∧
    (∀ q, Ev.deleted q ∈ (mainRun cfg n).1 → Ev.playEnd q ∈ (mainRun cfg n).1) := by
  refine ⟨mainRun_disk_bound cfg n hnd, mainRun_deletedSeq cfg n hnd, ?_⟩
  intro q hq
  rw [deleted_mem_iff, mainRun_deletedSeq cfg n hnd] at hq
  rw [playEnd_mem_iff]
  exact (List.dropLast_sublist _).subset hq

/-- Witness for the amended C2 on a concrete 3-item run. -/
theorem C2_retention_bound_witness :
    (disk ((mainRun cfgAllOk 3).1.take 5)).card ≤ 3 ∧
      deletedSeq (mainRun cfgAllOk 3).1 = (playedSeq (mainRun cfgAllOk 3).1).dropLast :=
  ⟨(C2_retention_bound cfgAllOk 3 rfl).1 _ (by decide),
   (C2_retention_bound cfgAllOk 3 rfl).2.1⟩

/-- Concrete interrupted configurations: stop observed from check 1
(signal during the first playback) and from check 2. -/
def cfgStop1 : Config := ⟨fun _ => true, 0, 0, fun _ => 0, false, some 1⟩

/-- Second interrupted configuration, stop observed from check 2. -/
def cfgStop2 : Config := ⟨fun _ => true, 0, 0, fun _ => 0, false, some 2⟩

/-- Counterexample to C3 as stated: in a 2-item all-success run whose stop
signal is observed at check 1 — i.e. issued while item K = 1 was playing,
after check 0 passed — the trace still contains the download of item K + 1
(index 1), because the prefetch for K + 1 is submitted *before* item K's
playback begins (line 270 precedes line 273); so "no fetch for item K+1 is
started" fails even though the play count stops at K = 1. -/
theorem C3_counterexample :
    ((mainRun cfgStop1 2).2).play_count = 1 ∧
      Ev.created 1 ∈ (mainRun cfgStop1 2).1 ∧
      fetchSeq (mainRun cfgStop1 2).1 = [0, 1] := by decide

/-- C3 (amended): with an always-succeeding fetcher, a stop signal observed
from check `s` (issued while 1-based item `K = s` was playing, during
iteration `s - 1`) lets item `K` finish naturally (its `playEnd` is in the
trace), leaves the final play count at `K`, and no download is ever started
for an item beyond index `s` — item `K+1`'s fetch (index `s`) may already
be in flight, having been submitted before item `K`'s playback began; the
loop then exits (Done). -/
theorem C3_stop_drains (cfg : Config) (n s : Nat)
    (hf : ∀ i, cfg.fetchOk i = true) (hs : cfg.stopFrom = some s)
    (h1 : 1 ≤ s) (hsn : s < n) :
    ((mainRun cfg n).2).play_count = s ∧
    Ev.playEnd (s - 1) ∈ (mainRun cfg n).1 ∧
    (∀ i, Ev.created i ∈ (mainRun cfg n).1 → i ≤ s) ∧
    (∀ i, Ev.fetchFail i ∉ (mainRun cfg n).1) := by
  have hinit := mainLoop_stop cfg n s hf hs hsn n initSt (by simp [initSt])
    (by simp [initSt]; omega) rfl
  have hdl0 : fetchRes cfg 0 = fetchRes cfg initSt.idx := rfl
  obtain ⟨hpc, hpe, hcr, hff⟩ := hinit
  have hfh0 : fetchHead cfg 0 = Ev.created 0 := by simp [fetchHead, hf]
  refine ⟨?_, ?_, ?_, ?_⟩
  · rw [mainRun_snd, hdl0]
    simp only [initSt] at hpc ⊢
    omega
  · rw [mainRun_fst, hdl0]
    exact List.mem_cons_of_mem _ hpe
  · intro i hm
    rw [mainRun_fst, hdl0, hfh0] at hm
    rcases List.mem_cons.mp hm with hm | hm
    · simp at hm
      omega
    · exact hcr i hm
  · intro i hm
    rw [mainRun_fst, hdl0, hfh0] at hm
    rcases List.mem_cons.mp hm with hm | hm
    · simp at hm
    · exact hff i hm

/-- Witness for the amended C3: queue of 4, stop observed from check 2:
item 2 (index 1) finishes, play count 2. -/
theorem C3_stop_drains_witness :
    ((mainRun cfgStop2 4).2).play_count = 2 ∧ Ev.playEnd 1 ∈ (mainRun cfgStop2 4).1 :=
  ⟨(C3_stop_drains cfgStop2 4 2 (fun _ => rfl) rfl (by decide) (by decide)).1,
   (C3_stop_drains cfgStop2 4 2 (fun _ => rfl) rfl (by decide) (by decide)).2.1⟩

/-- Jingle accounting: the jingles played are exactly one per play count
value `m` in the interval covered by the loop with `jcond cfg m` true. -/
theorem mainLoop_countJingles (cfg : Config) (n : Nat) :
    ∀ fuel st dl,
      countJingles (mainLoop cfg n fuel st dl).1
        = (List.range' (st.play_count + 1)
            (((mainLoop cfg n fuel st dl).2).play_count - st.play_count)).countP
            (fun m => jcond cfg m) := by
  intro fuel
  induction fuel with
  | zero => intro st dl; simp [mainLoop_zero, countJingles_nil]
  | succ fuel ih =>
    intro st dl
    by_cases h : stopped cfg st.checks = true ∨ n ≤ st.idx
    · simp [mainLoop_exit cfg n fuel st dl h, countJingles_nil]
    · cases dl with
      | none =>
        by_cases h2 : st.idx + 1 < n
        · rw [mainLoop_skip_cont cfg n fuel st h h2]
          simp only [countJingles_cons, isJingle_fetchHead, isJingle_eval.2.2.2.2.2.1]
          rw [ih]
          simp
        · rw [mainLoop_skip_last cfg n fuel st h h2]
          simp [countJingles_cons, countJingles_nil]
      | some p =>
        by_cases h2 : st.idx + 1 < n
        · rw [mainLoop_play_cont cfg n fuel st p h h2]
          have hmono := mainLoop_play_count cfg n fuel
            ⟨st.idx + 1, some p, st.play_count + 1, st.checks + 1⟩ (fetchRes cfg (st.idx + 1))
          simp only at hmono
          simp only [countJingles_cons, countJingles_append, countJingles_playSeg,
            isJingle_fetchHead]
          rw [ih]
          simp only
          have hk : ((mainLoop cfg n fuel ⟨st.idx + 1, some p, st.play_count + 1,
              st.checks + 1⟩ (fetchRes cfg (st.idx + 1))).2).play_count - st.play_count
              = (((mainLoop cfg n fuel ⟨st.idx + 1, some p, st.play_count + 1,
                  st.checks + 1⟩ (fetchRes cfg (st.idx + 1))).2).play_count
                - (st.play_count + 1)) + 1 := by omega
          rw [hk, List.range'_succ, List.countP_cons]
          by_cases hj : jcond cfg (st.play_count + 1) = true
          · simp [hj]
            omega
          · simp [hj]
        · rw [mainLoop_play_last cfg n fuel st p h h2]
          simp only [countJingles_playSeg]
          have hk : (st.play_count + 1) - st.play_count = 1 := by omega
          rw [hk, List.range'_succ]
          by_cases hj : jcond cfg (st.play_count + 1) = true
          · simp [hj, List.countP_cons]
          · simp [hj, List.countP_cons]

/-- Jingle accounting over a whole run: one jingle per play count value
`1..play_count` satisfying the period condition. -/
theorem mainRun_countJingles (cfg : Config) (n : Nat) :
    countJingles (mainRun cfg n).1
      = (List.range' 1 (((mainRun cfg n).2).play_count)).countP (fun m => jcond cfg m) := by
  rw [mainRun_fst, mainRun_snd, countJingles_cons]
  have := mainLoop_countJingles cfg n n initSt (fetchRes cfg 0)
  simp only [initSt] at this ⊢
  simp [this, isJingle_fetchHead]

/-- Concrete configuration: always-succeeding fetcher, jingle period 3,
one jingle in the library, retention on, no interrupt. -/
def cfgJingle3 : Config := ⟨fun _ => true, 3, 1, fun _ => 0, false, none⟩

/-- C6: after each successful source playback exactly one filler
(selected by the `random.choice` oracle over the library) is played iff the
effective jingle period is positive, the library is non-empty, and the
incremented play count is divisible by the period — `jcond` is exactly that
condition and the trace holds one jingle per qualifying play-count value;
with period 3 and 7 successful items the full trace shows fillers exactly
after items 3 and 6. -/
theorem C6_filler_cadence (cfg : Config) (n : Nat) :
    (countJingles (mainRun cfg n).1
      = (List.range' 1 (((mainRun cfg n).2).play_count)).countP (fun m => jcond cfg m)) ∧
    (mainRun cfgJingle3 7).1 =
      [Ev.created 0, Ev.created 1, Ev.playStart 0, Ev.playEnd 0,
       Ev.created 2, Ev.playStart 1, Ev.playEnd 1, Ev.deleted 0,
       Ev.created 3, Ev.playStart 2, Ev.playEnd 2, Ev.jingle 0, Ev.deleted 1,
       Ev.created 4, Ev.playStart 3, Ev.playEnd 3, Ev.deleted 2,
       Ev.created 5, Ev.playStart 4, Ev.playEnd 4, Ev.deleted 3,
       Ev.created 6, Ev.playStart 5, Ev.playEnd 5, Ev.jingle 0, Ev.deleted 4,
       Ev.playStart 6, Ev.playEnd 6, Ev.deleted 5] :=
  ⟨mainRun_countJingles cfg n, by decide⟩

/-- Witness for C8: an all-blank file exits 2 with nothing fetched or
played; a non-blank queue exits 0. -/
theorem C8_startup_exit_witness :
    radioMain cfgAllOk true [[' '], []] = (2, []) ∧
      (radioMain cfgAllOk true [['u', 'r', 'l']]).1 = 0 :=
  ⟨(C8_startup_exit cfgAllOk [[' '], []] true (Or.inr (by decide))).1,
   (C8_startup_exit cfgAllOk [[' '], []] true (Or.inr (by decide))).2.1 cfgAllOk
     [['u', 'r', 'l']] (by decide)⟩

end RadioRunner
